import Mathlib

/-!
Verification of the configuration-to-markup injection routine.

Shallow embedding of the loan-parameter injector of the
`annuity-loan-calculator` repository (`config_utils.py`, `apply_config.py`,
`upload.py`).  The Python code substitutes attribute values in an HTML
document using `re.sub` with the pattern family

    (<input[^>]*id="FIELD"[^>]*ATTR=")([^"]*)(")

replacing the second group by the configured value.  We model documents as
`List Char` and implement the exact leftmost-scan, greedy-backtracking
semantics of the Python `re` engine for this pattern family, together with
the template processing `re.sub` applies to its replacement argument
(`\g<1>{value}\g<3>`): backslash escapes in the configured string are group
references or escapes, not literal text.
-/

namespace Annuity

/-! ## Pattern literals -/

/-- The literal `<input` that opens every match of the pattern. -/
def inputLit : List Char := "<input".toList

/-- The literal `id="FIELD"` for a field id. -/
def idLit (k : List Char) : List Char := "id=\"".toList ++ k ++ ['"']

/-- The literal `ATTR="` for an attribute name (`value` or `placeholder`). -/
def attrLit (attr : List Char) : List Char := attr ++ "=\"".toList

/-- Attribute name `value`. -/
def valueAttr : List Char := "value".toList

/-- Attribute name `placeholder`. -/
def placeholderAttr : List Char := "placeholder".toList

/-! ## A small self-contained string-matching kernel -/

/-- `startsWith p s` : the pattern `p` is an initial segment of `s`. -/
def startsWith : List Char → List Char → Bool
  | [], _ => true
  | _ :: _, [] => false
  | a :: as, b :: bs => a == b && startsWith as bs

/-- Length of the maximal initial run of non-`>` characters
(the reach of a greedy `[^>]*`). -/
def ngtRun (s : List Char) : Nat := (s.takeWhile (fun c => c != '>')).length

/-- All ways the greedy `[^>]*` can split `s`, longest first —
the backtracking order of the Python engine. -/
def gtSplits (s : List Char) : List (List Char × List Char) :=
  ((List.range (ngtRun s + 1)).reverse).map (fun j => (s.take j, s.drop j))

/-- Greedy `[^"]*` followed by a mandatory `"`: splits `s` into the
quote-free content and the remainder after the closing quote. -/
def splitQuote (s : List Char) : Option (List Char × List Char) :=
  let c := s.takeWhile (fun ch => ch != '"')
  match s.drop c.length with
  | '"' :: rest => some (c, rest)
  | _ => none

/-- Attempt to match the pattern `(<input[^>]*id="k"[^>]*attr=")([^"]*)(")`
anchored at the start of `s`, with the greedy backtracking order of the
Python `re` engine.  On success, returns `(group1, group2, rest)` where
`s = group1 ++ group2 ++ '"' :: rest`; group 3 is always `"` . -/
def tryMatch (k attr : List Char) (s : List Char) : Option (List Char × List Char × List Char) :=
  if startsWith inputLit s then
    (gtSplits (s.drop 6)).findSome? (fun ar =>
      if startsWith (idLit k) ar.2 then
        (gtSplits (ar.2.drop (idLit k).length)).findSome? (fun br =>
          if startsWith (attrLit attr) br.2 then
            match splitQuote (br.2.drop (attrLit attr).length) with
            | some (c, rest) => some (inputLit ++ ar.1 ++ idLit k ++ br.1 ++ attrLit attr, c, rest)
            | none => none
          else none)
      else none)
  else none

/-- One step of `re.sub`: scan left to right with `fuel` bounding the number
of steps; at each position try an anchored match, replace group 2 by `v` on
success and resume after the match, otherwise keep the character. -/
def goSub (k attr v : List Char) : Nat → List Char → List Char
  | 0, s => s
  | _ + 1, [] => []
  | fuel + 1, c :: cs =>
    match tryMatch k attr (c :: cs) with
    | some (g1, _, rest) => g1 ++ v ++ '"' :: goSub k attr v fuel rest
    | none => c :: goSub k attr v fuel cs

/-- `re.sub` of the pattern for field `k` / attribute `attr`, replacing the
value group by `v` in every match of `s`. -/
def reSub (k attr v s : List Char) : List Char := goSub k attr v s.length s

/-! ## The loan configuration data model -/

/-- One entry of the `loan:` section of `config.yml`: a mandatory `value`
and, for `default_special_payment`, an optional `placeholder`. -/
structure LoanEntry where
  value : List Char
  placeholder : Option (List Char) := none
deriving DecidableEq

/-- The `loan:` mapping of `config.yml` (a Python dict in insertion order). -/
abbrev LoanConfig := List (String × LoanEntry)

/-- A fatal configuration error: a required loan sub-key is absent
(a Python `KeyError` escaping `apply_loan_parameters`). -/
inductive ConfigurationError where
  | keyError (key : String)
deriving DecidableEq

deriving instance DecidableEq for Except

/-- Dictionary lookup `loan_config[key]`. -/
def lookupKey (lc : LoanConfig) (key : String) : Option LoanEntry :=
  (lc.find? (fun p => p.1 == key)).map (fun p => p.2)

/-- `loan_config[key]['value']` — raises `KeyError` when the sub-key is absent. -/
def getValue (lc : LoanConfig) (key : String) : Except ConfigurationError (List Char) :=
  match lookupKey lc key with
  | some e => .ok e.value
  | none => .error (.keyError key)

/-- Hyphenated element id for `principal`. -/
def keyPrincipal : List Char := "principal".toList
/-- Hyphenated element id for `interest_rate`. -/
def keyInterestRate : List Char := "interest-rate".toList
/-- Hyphenated element id for `effective_rate`. -/
def keyEffectiveRate : List Char := "effective-rate".toList
/-- Hyphenated element id for `tilgung`. -/
def keyTilgung : List Char := "tilgung".toList
/-- Hyphenated element id for `duration`. -/
def keyDuration : List Char := "duration".toList
/-- Hyphenated element id for `default_special_payment`. -/
def keyDSP : List Char := "default-special-payment".toList

/-- The six hyphenated ids, in the fixed iteration order of the
`replacements` dict of the source. -/
def sixKeys : List (List Char) :=
  [keyPrincipal, keyInterestRate, keyEffectiveRate, keyTilgung, keyDuration, keyDSP]

/-- `apply_loan_parameters` of `config_utils.py`: returns the document
unchanged for a falsy configuration, otherwise builds the six-entry
`replacements` dict (any missing sub-key raises), applies the six `re.sub`
substitutions in dict order, and finally also rewrites the `placeholder`
attribute of `default-special-payment` when that entry carries one. -/
def apply_loan_parameters (html_content : List Char) (loan_config : Option LoanConfig) :
    Except ConfigurationError (List Char) :=
  match loan_config with
  | none => .ok html_content
  | some lc =>
    if lc.isEmpty then .ok html_content else do
      let vP ← getValue lc "principal"
      let vI ← getValue lc "interest_rate"
      let vE ← getValue lc "effective_rate"
      let vT ← getValue lc "tilgung"
      let vD ← getValue lc "duration"
      let vS ← getValue lc "default_special_payment"
      let h := reSub keyPrincipal valueAttr vP html_content
      let h := reSub keyInterestRate valueAttr vI h
      let h := reSub keyEffectiveRate valueAttr vE h
      let h := reSub keyTilgung valueAttr vT h
      let h := reSub keyDuration valueAttr vD h
      let h := reSub keyDSP valueAttr vS h
      let h := match lookupKey lc "default_special_payment" with
        | some e =>
          match e.placeholder with
          | some pv => reSub keyDSP placeholderAttr pv h
          | none => h
        | none => h
      .ok h

/-- `apply_loan_parameters` of `apply_config.py`: same six substitutions, but
no falsy-configuration guard and no placeholder update. -/
def apply_loan_parameters_AC (html_content : List Char) (loan_config : LoanConfig) :
    Except ConfigurationError (List Char) := do
  let vP ← getValue loan_config "principal"
  let vI ← getValue loan_config "interest_rate"
  let vE ← getValue loan_config "effective_rate"
  let vT ← getValue loan_config "tilgung"
  let vD ← getValue loan_config "duration"
  let vS ← getValue loan_config "default_special_payment"
  let h := reSub keyPrincipal valueAttr vP html_content
  let h := reSub keyInterestRate valueAttr vI h
  let h := reSub keyEffectiveRate valueAttr vE h
  let h := reSub keyTilgung valueAttr vT h
  let h := reSub keyDuration valueAttr vD h
  let h := reSub keyDSP valueAttr vS h
  .ok h

/-! ## `load_config` and the upload entry point -/

/-- The possible outcomes of opening and parsing `config.yml`. -/
inductive ReadOutcome where
  | ok (c : Option LoanConfig)
  | fileNotFound
  | yamlError
deriving DecidableEq

/-- `load_config` of `config_utils.py`: returns the parsed configuration's
`loan` section wrapper, or `None` (printing a warning) when the file is
absent or unparsable.  We record only the `loan` section, the part the
callers consult. -/
def load_config : ReadOutcome → Option (Option LoanConfig)
  | .ok c => some c
  | .fileNotFound => none
  | .yamlError => none

/-- The CDN reference to D3.js replaced by `prepare_files` in `upload.py`. -/
def d3cdn : List Char := "<script src=\"https://d3js.org/d3.v7.min.js\"></script>".toList

/-- The local reference substituted for the CDN one. -/
def d3local : List Char := "<script src=\"lib/d3.v7.min.js\"></script>".toList

/-- Python `str.replace`: replace every occurrence of `pat` (non-empty)
by `rep`, scanning left to right. -/
def replaceAll (pat rep : List Char) : Nat → List Char → List Char
  | 0, s => s
  | _ + 1, [] => []
  | fuel + 1, c :: cs =>
    if startsWith pat (c :: cs) then
      rep ++ replaceAll pat rep fuel ((c :: cs).drop pat.length)
    else
      c :: replaceAll pat rep fuel cs

/-- The `index.html` rewriting step of `prepare_files` in `upload.py`:
swap the CDN D3.js reference for the local copy, then inject the loan
parameters only when a configuration with a `loan` section was loaded. -/
def prepare_index_content (config : Option (Option LoanConfig)) (content : List Char) :
    Except ConfigurationError (List Char) :=
  let content := replaceAll d3cdn d3local content.length content
  match config with
  | some (some lc) => apply_loan_parameters content (some lc)
  | some none => .ok content
  | none => .ok content

/-! ## Well-formed document families

The data model of the spec: a document made of inert text and `<input>`
elements carrying an `id` and a `value` attribute (and possibly a
`placeholder` attribute).  `GoodChar` excludes the four characters that the
pattern machinery treats specially; numeric values and the fixed ids are
made of good characters. -/

/-- A character that cannot interfere with the pattern structure. -/
def GoodChar (c : Char) : Prop := c ≠ '<' ∧ c ≠ '>' ∧ c ≠ '"' ∧ c ≠ '='

instance : DecidablePred GoodChar := fun c => by unfold GoodChar; infer_instance

/-- A string of non-interfering characters. -/
def GoodStr (s : List Char) : Prop := ∀ c ∈ s, GoodChar c

instance (s : List Char) : Decidable (GoodStr s) := by unfold GoodStr; infer_instance

/-- `hasOcc p s` : the pattern `p` occurs somewhere in `s`. -/
def hasOcc (p s : List Char) : Prop := ∃ j, startsWith p (s.drop j) = true

/-- Bounded boolean version of `hasOcc`. -/
def hasOccB (p s : List Char) : Bool :=
  (List.range (s.length + 1)).any (fun j => startsWith p (s.drop j))

instance (p s : List Char) : Decidable (hasOcc p s) :=
  decidable_of_iff (hasOccB p s = true) (by
    unfold hasOcc hasOccB
    rw [List.any_eq_true]
    constructor
    · rintro ⟨j, _, hj⟩
      exact ⟨j, hj⟩
    · rintro ⟨j, hj⟩
      rcases le_or_lt j s.length with hle | hlt
      · exact ⟨j, List.mem_range.mpr (by omega), hj⟩
      · refine ⟨s.length, List.mem_range.mpr (by omega), ?_⟩
        rw [List.drop_length]
        rwa [List.drop_eq_nil_of_le (Nat.le_of_lt hlt)] at hj)

/-- A document segment: inert text, or one `<input>` tag
`<input{a1}id="{id}"{a2}value="{old}"{placeholder part}>`. -/
inductive Seg where
  | raw (s : List Char)
  | tag (a1 id a2 old : List Char) (ph : Option (List Char × List Char))
deriving DecidableEq

/-- The text of the optional placeholder attribute:
`{a3}placeholder="{p}"`. -/
def phPart : Option (List Char × List Char) → List Char
  | none => []
  | some (a3, p) => a3 ++ attrLit placeholderAttr ++ p ++ ['"']

/-- The text of one segment. -/
def Seg.flat : Seg → List Char
  | .raw s => s
  | .tag a1 id a2 old ph =>
      inputLit ++ a1 ++ idLit id ++ a2 ++ attrLit valueAttr ++ old ++ ['"'] ++ phPart ph ++ ['>']

/-- The text of a document. -/
def flat : List Seg → List Char
  | [] => []
  | s :: rest => s.flat ++ flat rest

/-- Is the segment an inert-text segment? -/
def Seg.isRaw : Seg → Bool
  | .raw _ => true
  | .tag _ _ _ _ _ => false

/-- Goodness of the optional placeholder data of a tag. -/
def phGood : Option (List Char × List Char) → Prop
  | none => True
  | some (a3, p) => GoodStr a3 ∧ GoodStr p

instance : ∀ ph, Decidable (phGood ph)
  | none => .isTrue trivial
  | some (_, _) => inferInstanceAs (Decidable (_ ∧ _))

/-- Well-formedness of one segment: inert text contains no `<input`;
a tag's pieces consist of non-interfering characters. -/
def Seg.wf : Seg → Prop
  | .raw s => ¬ hasOcc inputLit s
  | .tag a1 id a2 old ph => GoodStr a1 ∧ GoodStr id ∧ GoodStr a2 ∧ GoodStr old ∧ phGood ph

/-- The next segment may follow the current one: two inert-text segments
must not be adjacent (so `<input` cannot arise across a boundary). -/
def sepOk (x : Seg) : List Seg → Prop
  | [] => True
  | y :: _ => (x.isRaw && y.isRaw) = false

/-- Well-formed documents. -/
def wfSegs : List Seg → Prop
  | [] => True
  | x :: rest => x.wf ∧ sepOk x rest ∧ wfSegs rest

instance : ∀ s : Seg, Decidable s.wf
  | .raw _ => inferInstanceAs (Decidable (¬ _))
  | .tag _ _ _ _ _ => inferInstanceAs (Decidable (_ ∧ _ ∧ _ ∧ _ ∧ _))

instance : ∀ (x : Seg) (l : List Seg), Decidable (sepOk x l)
  | _, [] => .isTrue trivial
  | _, _ :: _ => inferInstanceAs (Decidable (_ = _))

instance decWfSegs : ∀ segs : List Seg, Decidable (wfSegs segs)
  | [] => .isTrue trivial
  | _ :: rest =>
    have := decWfSegs rest
    inferInstanceAs (Decidable (_ ∧ _ ∧ _))

/-- `updValue k v` : the effect of one value substitution on a segment. -/
def updValue (k v : List Char) : Seg → Seg
  | .raw s => .raw s
  | .tag a1 id a2 old ph =>
      if id = k then .tag a1 id a2 v ph else .tag a1 id a2 old ph

/-- `updPh k p` : the effect of one placeholder substitution on a segment. -/
def updPh (k p : List Char) : Seg → Seg
  | .raw s => .raw s
  | .tag a1 id a2 old ph =>
      if id = k then .tag a1 id a2 old (ph.map fun q => (q.1, p)) else .tag a1 id a2 old ph

/-- The loan configuration with the six entries in source order,
values as given, and an optional placeholder on `default_special_payment`. -/
def mkCfg (vP vI vE vT vD vS : List Char) (pv : Option (List Char)) : LoanConfig :=
  [("principal", ⟨vP, none⟩), ("interest_rate", ⟨vI, none⟩),
   ("effective_rate", ⟨vE, none⟩), ("tilgung", ⟨vT, none⟩),
   ("duration", ⟨vD, none⟩), ("default_special_payment", ⟨vS, pv⟩)]

/-- The effect of the whole injector on a document's segments: the six
value substitutions in dict order, then the optional placeholder one. -/
def updAll (vP vI vE vT vD vS : List Char) (pv : Option (List Char)) (segs : List Seg) : List Seg :=
  let s1 := segs.map (updValue keyPrincipal vP)
  let s2 := s1.map (updValue keyInterestRate vI)
  let s3 := s2.map (updValue keyEffectiveRate vE)
  let s4 := s3.map (updValue keyTilgung vT)
  let s5 := s4.map (updValue keyDuration vD)
  let s6 := s5.map (updValue keyDSP vS)
  match pv with
  | some p => s6.map (updPh keyDSP p)
  | none => s6

/-- The configured value picked for a given hyphenated id. -/
def cfgValueFor (k vP vI vE vT vD vS : List Char) : List Char :=
  if k = keyPrincipal then vP
  else if k = keyInterestRate then vI
  else if k = keyEffectiveRate then vE
  else if k = keyTilgung then vT
  else if k = keyDuration then vD
  else vS

/-- One value substitution step, as folded over key/value pairs. -/
def substStep (doc : List Char) (kv : List Char × List Char) : List Char :=
  reSub kv.1 valueAttr kv.2 doc

/-- The implementation's fixed sequence of key/value pairs. -/
def fixedPairs (vP vI vE vT vD vS : List Char) : List (List Char × List Char) :=
  [(keyPrincipal, vP), (keyInterestRate, vI), (keyEffectiveRate, vE),
   (keyTilgung, vT), (keyDuration, vD), (keyDSP, vS)]

/-- The value held by a tag with the given id after folding the
substitutions for the pairs of `l` over it, in order. -/
def valueAfter (l : List (List Char × List Char)) (id old : List Char) : List Char :=
  l.foldl (fun acc kv => if id = kv.1 then kv.2 else acc) old

/-! ## Further derived text forms and concrete inputs -/

/-- The text of a tag between `<input` and `>`. -/
def tagM (a1 id a2 old : List Char) (ph : Option (List Char × List Char)) : List Char :=
  a1 ++ (idLit id ++ (a2 ++ (attrLit valueAttr ++ (old ++ '"' :: phPart ph))))

/-- The after-id region of a tag's text. -/
def regionM (a2 old : List Char) (ph : Option (List Char × List Char)) : List Char :=
  a2 ++ (attrLit valueAttr ++ (old ++ '"' :: phPart ph))

/-- The effect of the whole injector on one segment. -/
def updSeg (vP vI vE vT vD vS : List Char) (pv : Option (List Char)) (s : Seg) : Seg :=
  match pv with
  | some p => updPh keyDSP p (updValue keyDSP vS (updValue keyDuration vD
      (updValue keyTilgung vT (updValue keyEffectiveRate vE
        (updValue keyInterestRate vI (updValue keyPrincipal vP s))))))
  | none => updValue keyDSP vS (updValue keyDuration vD
      (updValue keyTilgung vT (updValue keyEffectiveRate vE
        (updValue keyInterestRate vI (updValue keyPrincipal vP s)))))

/-! ## Concrete inputs for the counterexamples -/

/-- A tag whose `value` attribute precedes its `id` attribute. -/
def docIdAfterValue : List Char := "<input value=\"OLD\" id=\"principal\">".toList

/-- A `default-special-payment` tag with value and placeholder. -/
def docDSP : List Char :=
  "<input id=\"default-special-payment\" value=\"0\" placeholder=\"P\">".toList

/-- A full numeric configuration without a placeholder. -/
def cfgAllNums : LoanConfig :=
  mkCfg "42".toList "3.5".toList "3.56".toList "2.0".toList "25".toList "5000".toList none

/-- A full configuration whose placeholder is an ordinary string. -/
def cfgWithPh : LoanConfig :=
  mkCfg "42".toList "3.5".toList "3.56".toList "2.0".toList "25".toList "5000".toList
    (some "NEW".toList)

/-- A full configuration whose placeholder string contains a double quote. -/
def cfgQuotePh : LoanConfig :=
  mkCfg "1".toList "2".toList "3".toList "4".toList "5".toList "6".toList
    (some "A\"B".toList)

/-- The six required sub-keys of the `loan:` section. -/
def requiredLoanKeys : List String :=
  ["principal", "interest_rate", "effective_rate", "tilgung", "duration",
   "default_special_payment"]

/-! ## The replacement template of `re.sub`

The source passes the replacement string `\g<1>VALUE\g<3>` to `re.sub`.
CPython processes this argument as a *template* (`sre_parse.parse_template`):
`\1`–`\9` and `\g<...>` are group references, `\\`, `\n`, `\t`, … are
escapes, `\0` starts an octal escape, and an unknown ASCII-letter escape
such as `\d` raises `re.error` — before scanning, so even when the pattern
matches nowhere.  A configured value or placeholder containing a backslash
is therefore *not* inserted literally.  `reSub` above is the literal core;
the definitions below add the template layer, and the two agree exactly
when the configured string contains no backslash. -/

/-- One item of a parsed replacement template: a literal character or a
group reference. -/
inductive TItem where
  | lit (c : Char)
  | grp (n : Nat)

/-- Is `c` an octal digit? -/
def isOctDigit (c : Char) : Bool := '0' ≤ c && c ≤ '7'

/-- The numeric value of a decimal digit. -/
def digitVal (c : Char) : Nat := c.toNat - '0'.toNat

/-- The number denoted by a string of decimal digits. -/
def natOfDigits (ds : List Char) : Nat := ds.foldl (fun n c => n * 10 + digitVal c) 0

/-- The `ESCAPES` table of `sre_parse`: the escapes `\a \b \f \n \r \t \v \\`
allowed in a replacement template. -/
def escMap (c : Char) : Option Char :=
  if c = 'a' then some (Char.ofNat 7)
  else if c = 'b' then some (Char.ofNat 8)
  else if c = 'f' then some (Char.ofNat 12)
  else if c = 'n' then some (Char.ofNat 10)
  else if c = 'r' then some (Char.ofNat 13)
  else if c = 't' then some (Char.ofNat 9)
  else if c = 'v' then some (Char.ofNat 11)
  else if c = '\\' then some '\\'
  else none

/-- `getuntil('>')` of the template tokenizer: split off the characters up
to the first `>`, or fail at the end of the string. -/
def splitUntilGt : List Char → Option (List Char × List Char)
  | [] => none
  | c :: rest =>
    if c = '>' then some ([], rest)
    else match splitUntilGt rest with
      | some (nm, r) => some (c :: nm, r)
      | none => none

/-- ASCII model of Python's `str.isidentifier`. -/
def isIdentStr : List Char → Bool
  | [] => false
  | c :: rest => (c.isAlpha || c = '_') && rest.all (fun d => d.isAlphanum || d = '_')

/-- The name inside `\g<...>`: a digit string is a group index, checked
against the pattern's three groups; an identifier would be a named group,
and the injector's patterns define none; anything else is malformed.
(Python's `int` also accepts a leading `+` and surrounding blanks; those
corners of `int(name)` are not modeled.) -/
def parseGroupName (nm : List Char) : Except String Nat :=
  if nm.isEmpty then .error "missing group name"
  else if isIdentStr nm then .error "unknown group name"
  else if nm.all Char.isDigit then
    if natOfDigits nm > 3 then .error "invalid group reference"
    else .ok (natOfDigits nm)
  else .error "bad character in group name"

/-- Cons a literal character onto a template parse result. -/
def consLit (c : Char) : Except String (List TItem) → Except String (List TItem)
  | .ok items => .ok (.lit c :: items)
  | .error e => .error e

/-- Cons a group reference onto a template parse result. -/
def consGrp (n : Nat) : Except String (List TItem) → Except String (List TItem)
  | .ok items => .ok (.grp n :: items)
  | .error e => .error e

/-- `sre_parse.parse_template` for a pattern with three groups, with fuel
bounding the recursion (fuel = length always suffices): `\g<...>` and
`\1`–`\9` are group references (two consumed digits give a two-digit
reference, three octal digits an octal escape), `\0` an octal escape, the
`escMap` escapes their characters; an unknown ASCII-letter escape is fatal
(`re.error`), an unknown non-letter escape keeps both characters. -/
def parseTmpl : Nat → List Char → Except String (List TItem)
  | 0, [] => .ok []
  | 0, _ :: _ => .error "template fuel exhausted"
  | _ + 1, [] => .ok []
  | f + 1, c :: rest =>
    if c = '\\' then
      match rest with
      | [] => .error "bad escape (end of pattern)"
      | d :: rest2 =>
        if d = 'g' then
          match rest2 with
          | '<' :: rest3 =>
            match splitUntilGt rest3 with
            | some (nm, rest4) =>
              match parseGroupName nm with
              | .ok idx => consGrp idx (parseTmpl f rest4)
              | .error e => .error e
            | none => .error "missing >, unterminated name"
          | _ => .error "missing <"
        else if d = '0' then
          match rest2 with
          | e :: rest3 =>
            if isOctDigit e then
              match rest3 with
              | f3 :: rest4 =>
                if isOctDigit f3 then
                  consLit (Char.ofNat ((digitVal e * 8 + digitVal f3) % 256))
                    (parseTmpl f rest4)
                else consLit (Char.ofNat (digitVal e)) (parseTmpl f rest3)
              | [] => consLit (Char.ofNat (digitVal e)) (parseTmpl f [])
            else consLit (Char.ofNat 0) (parseTmpl f rest2)
          | [] => consLit (Char.ofNat 0) (parseTmpl f [])
        else if d.isDigit then
          match rest2 with
          | e :: rest3 =>
            if e.isDigit then
              match rest3 with
              | f3 :: rest4 =>
                if isOctDigit d && isOctDigit e && isOctDigit f3 then
                  if (digitVal d * 8 + digitVal e) * 8 + digitVal f3 > 255 then
                    .error "octal escape value outside of range 0-0o377"
                  else
                    consLit (Char.ofNat ((digitVal d * 8 + digitVal e) * 8 + digitVal f3))
                      (parseTmpl f rest4)
                else if digitVal d * 10 + digitVal e > 3 then .error "invalid group reference"
                else consGrp (digitVal d * 10 + digitVal e) (parseTmpl f rest3)
              | [] =>
                if digitVal d * 10 + digitVal e > 3 then .error "invalid group reference"
                else consGrp (digitVal d * 10 + digitVal e) (parseTmpl f [])
            else if digitVal d > 3 then .error "invalid group reference"
            else consGrp (digitVal d) (parseTmpl f rest2)
          | [] =>
            if digitVal d > 3 then .error "invalid group reference"
            else consGrp (digitVal d) (parseTmpl f [])
        else
          match escMap d with
          | some ch => consLit ch (parseTmpl f rest2)
          | none =>
            if d.isAlpha then .error "bad escape"
            else consLit '\\' (consLit d (parseTmpl f rest2))
    else
      consLit c (parseTmpl f rest)

/-- The full replacement string `\g<1>{v}\g<3>` built by the source, as a
character list (the interpolated `v` can interact with the surrounding
escapes, e.g. a trailing backslash in `v` swallows the following `g<3>`). -/
def replTemplate (v : List Char) : List Char :=
  '\\' :: 'g' :: '<' :: '1' :: '>' :: (v ++ ['\\', 'g', '<', '3', '>'])

/-- Parse the replacement template for configured string `v` — done once
per `re.sub` call, before any scanning. -/
def compileRepl (v : List Char) : Except String (List TItem) :=
  parseTmpl (replTemplate v).length (replTemplate v)

/-- The expansion of one template item at a match with first group `g1` and
content group `cnt` (group 3 of the injector's patterns is always `"`,
group 0 the whole match; indices above 3 are rejected at parse time). -/
def renderItem (g1 cnt : List Char) : TItem → List Char
  | .lit c => [c]
  | .grp 0 => g1 ++ cnt ++ ['"']
  | .grp 1 => g1
  | .grp 2 => cnt
  | .grp 3 => ['"']
  | .grp _ => []

/-- The expansion of a parsed template at a match. -/
def render (g1 cnt : List Char) : List TItem → List Char
  | [] => []
  | it :: rest => renderItem g1 cnt it ++ render g1 cnt rest

/-- `goSub` with a template-processed replacement: each match is replaced
by the template expanded at that match. -/
def goSubT (k attr : List Char) (items : List TItem) : Nat → List Char → List Char
  | 0, s => s
  | _ + 1, [] => []
  | fuel + 1, c :: cs =>
    match tryMatch k attr (c :: cs) with
    | some (g1, cnt, rest) => render g1 cnt items ++ goSubT k attr items fuel rest
    | none => c :: goSubT k attr items fuel cs

/-- `re.sub` with the template-processed replacement `\g<1>{v}\g<3>`:
parse the template (raising `re.error` on a bad escape, even with no
match), then substitute every match. -/
def reSubT (k attr v s : List Char) : Except String (List Char) :=
  match compileRepl v with
  | .ok items => .ok (goSubT k attr items s.length s)
  | .error e => .error e

/-- An exception escaping `apply_loan_parameters`: a missing required
sub-key (Python `KeyError`) or a malformed replacement template
(Python `re.error`). -/
inductive SubError where
  | keyError (key : String)
  | reError (msg : String)
deriving DecidableEq

/-- `loan_config[key]['value']` in the template-faithful model. -/
def getValueT (lc : LoanConfig) (key : String) : Except SubError (List Char) :=
  match lookupKey lc key with
  | some e => .ok e.value
  | none => .error (.keyError key)

/-- One `re.sub` call of the injector, with `re.error` propagated. -/
def subT (k attr v h : List Char) : Except SubError (List Char) :=
  match reSubT k attr v h with
  | .ok r => .ok r
  | .error e => .error (.reError e)

/-- `apply_loan_parameters` of `config_utils.py` with the replacement
argument template-processed as CPython's `re` does — the faithful model of
the program for configured strings that may contain backslashes.  Same
structure as `apply_loan_parameters`: falsy guard, six lookups (any missing
sub-key raises), six substitutions in dict order, optional placeholder
update; each substitution can now raise `re.error`. -/
def apply_loan_parametersT (html_content : List Char) (loan_config : Option LoanConfig) :
    Except SubError (List Char) :=
  match loan_config with
  | none => .ok html_content
  | some lc =>
    if lc.isEmpty then .ok html_content else do
      let vP ← getValueT lc "principal"
      let vI ← getValueT lc "interest_rate"
      let vE ← getValueT lc "effective_rate"
      let vT ← getValueT lc "tilgung"
      let vD ← getValueT lc "duration"
      let vS ← getValueT lc "default_special_payment"
      let h ← subT keyPrincipal valueAttr vP html_content
      let h ← subT keyInterestRate valueAttr vI h
      let h ← subT keyEffectiveRate valueAttr vE h
      let h ← subT keyTilgung valueAttr vT h
      let h ← subT keyDuration valueAttr vD h
      let h ← subT keyDSP valueAttr vS h
      match lookupKey lc "default_special_payment" with
      | some e =>
        match e.placeholder with
        | some pv => subT keyDSP placeholderAttr pv h
        | none => .ok h
      | none => .ok h

/-- A full configuration whose placeholder is the string `\d`
(an unknown ASCII-letter escape in a replacement template). -/
def cfgBadEscapePh : LoanConfig :=
  mkCfg "1".toList "2".toList "3".toList "4".toList "5".toList "6".toList
    (some "\\d".toList)

/-- A full configuration whose placeholder is the string `x\1y`
(a group-1 backreference in a replacement template). -/
def cfgBackrefPh : LoanConfig :=
  mkCfg "1".toList "2".toList "3".toList "4".toList "5".toList "6".toList
    (some "x\\1y".toList)

/-- `docDSP` as the claim predicts it after injecting `cfgBackrefPh`:
value set to `6` and the placeholder attribute set to the literal
configured string `x\1y`. -/
def docDSPBoth : List Char :=
  "<input id=\"default-special-payment\" value=\"6\" placeholder=\"x\\1y\">".toList

/-- `docDSP` as the program actually rewrites it under `cfgBackrefPh`:
the backreference `\1` splices the whole first group into the placeholder
attribute (checked against CPython). -/
def docDSPSpliced : List Char :=
  ("<input id=\"default-special-payment\" value=\"6\" placeholder=\"x" ++
   "<input id=\"default-special-payment\" value=\"6\" placeholder=\"y\">").toList

/-! ## Basic facts about the matching kernel -/

theorem startsWith_iff {p s : List Char} : startsWith p s = true ↔ ∃ t, s = p ++ t := by
  induction p generalizing s with
  | nil => simp [startsWith]
  | cons a as ih =>
    cases s with
    | nil => simp [startsWith]
    | cons b bs =>
      simp only [startsWith, Bool.and_eq_true, beq_iff_eq, ih]
      constructor
      · rintro ⟨rfl, t, rfl⟩; exact ⟨t, rfl⟩
      · rintro ⟨t, h⟩
        injection h with h1 h2
        exact ⟨h1.symm, t, h2⟩

theorem startsWith_append (p t : List Char) : startsWith p (p ++ t) = true :=
  startsWith_iff.mpr ⟨t, rfl⟩

theorem startsWith_length {p s : List Char} (h : startsWith p s = true) : p.length ≤ s.length := by
  obtain ⟨t, rfl⟩ := startsWith_iff.mp h
  simp

theorem startsWith_getElem? {p s : List Char} (h : startsWith p s = true) :
    ∀ i < p.length, s[i]? = p[i]? := by
  obtain ⟨t, rfl⟩ := startsWith_iff.mp h
  intro i hi
  rw [List.getElem?_append_left hi]

/-- Peel a literal chunk off the front of a `startsWith` fact. -/
theorem startsWith_append_elim {x y s : List Char} (h : startsWith (x ++ y) s = true) :
    startsWith x s = true ∧ startsWith y (s.drop x.length) = true := by
  obtain ⟨t, rfl⟩ := startsWith_iff.mp h
  refine ⟨startsWith_iff.mpr ⟨y ++ t, by simp⟩, ?_⟩
  rw [List.append_assoc, List.drop_left]
  exact startsWith_append y t

/-- Split a `startsWith` fact over an append of the subject. -/
theorem startsWith_append_split {p y t : List Char} (h : startsWith p (y ++ t) = true) :
    (p.length ≤ y.length ∧ startsWith p y = true) ∨
      (y.length < p.length ∧ p.take y.length = y ∧
        startsWith (p.drop y.length) t = true) := by
  obtain ⟨r, hr⟩ := startsWith_iff.mp h
  rcases le_or_lt p.length y.length with hle | hlt
  · left
    have hp : y.take p.length = p := by
      have := congrArg (List.take p.length) hr
      rw [List.take_append_of_le_length hle, List.take_left' rfl] at this
      exact this
    refine ⟨hle, startsWith_iff.mpr ⟨y.drop p.length, ?_⟩⟩
    conv_lhs => rw [← List.take_append_drop p.length y]
    rw [hp]
  · right
    refine ⟨hlt, ?_, ?_⟩
    · have := congrArg (List.take y.length) hr
      rw [List.take_left, List.take_append_of_le_length (Nat.le_of_lt hlt)] at this
      exact this.symm
    · have := congrArg (List.drop y.length) hr
      rw [List.drop_left] at this
      rw [this, List.drop_append_of_le_length (Nat.le_of_lt hlt)]
      exact startsWith_iff.mpr ⟨r, rfl⟩

theorem hasOcc_iff {p s : List Char} : hasOcc p s ↔ hasOccB p s = true := by
  unfold hasOcc hasOccB
  rw [List.any_eq_true]
  constructor
  · rintro ⟨j, hj⟩
    rcases le_or_lt j s.length with hle | hlt
    · exact ⟨j, List.mem_range.mpr (by omega), hj⟩
    · refine ⟨s.length, List.mem_range.mpr (by omega), ?_⟩
      rw [List.drop_length]
      rwa [List.drop_eq_nil_of_le (Nat.le_of_lt hlt)] at hj
  · rintro ⟨j, _, hj⟩
    exact ⟨j, hj⟩

theorem hasOcc_of_startsWith_drop {p s : List Char} (j : Nat)
    (h : startsWith p (s.drop j) = true) : hasOcc p s := ⟨j, h⟩

/-- Membership in `gtSplits` determines the split. -/
theorem gtSplits_mem {s : List Char} {ar : List Char × List Char} (h : ar ∈ gtSplits s) :
    ∃ j, j ≤ ngtRun s ∧ ar = (s.take j, s.drop j) := by
  unfold gtSplits at h
  obtain ⟨j, hj, rfl⟩ := List.mem_map.mp h
  rw [List.mem_reverse, List.mem_range] at hj
  exact ⟨j, by omega, rfl⟩

theorem gtSplits_self_mem {s : List Char} {j : Nat} (h : j ≤ ngtRun s) :
    (s.take j, s.drop j) ∈ gtSplits s := by
  unfold gtSplits
  exact List.mem_map.mpr ⟨j, by rw [List.mem_reverse, List.mem_range]; omega, rfl⟩

theorem take_length_takeWhile (p : Char → Bool) (s : List Char) :
    s.take (s.takeWhile p).length = s.takeWhile p := by
  induction s with
  | nil => rfl
  | cons a t ih => by_cases h : p a <;> simp [List.takeWhile_cons, h, ih]

theorem splitQuote_eq_some {s c rest : List Char} (h : splitQuote s = some (c, rest)) :
    s = c ++ '"' :: rest := by
  unfold splitQuote at h
  simp only at h
  split at h
  next tl heq =>
    simp only [Option.some.injEq, Prod.mk.injEq] at h
    obtain ⟨rfl, rfl⟩ := h
    conv_lhs => rw [← List.take_append_drop (s.takeWhile (fun ch => ch != '"')).length s]
    rw [take_length_takeWhile, heq]
  next => exact absurd h (by simp)

/-- Soundness of an anchored match: the input decomposes as
`group1 ++ group2 ++ '"' ++ rest`, and group 1 starts with `<input`. -/
theorem tryMatch_eq_some {k attr s g1 c rest : List Char}
    (h : tryMatch k attr s = some (g1, c, rest)) :
    s = g1 ++ c ++ '"' :: rest ∧ 6 ≤ g1.length := by
  unfold tryMatch at h
  split at h
  case isFalse => exact absurd h (by simp)
  case isTrue hsw =>
  obtain ⟨l1, ar, l2, hsplit, har, -⟩ := List.findSome?_eq_some_iff.mp h
  have harmem : ar ∈ gtSplits (s.drop 6) := by
    rw [hsplit]; exact List.mem_append_right _ (List.mem_cons_self _ _)
  obtain ⟨j, -, rfl⟩ := gtSplits_mem harmem
  dsimp only at har
  split at har
  case isFalse => exact absurd har (by simp)
  case isTrue hid =>
  obtain ⟨l3, br, l4, hsplit2, hbr, -⟩ := List.findSome?_eq_some_iff.mp har
  have hbrmem : br ∈ gtSplits (((s.drop 6).drop j).drop (idLit k).length) := by
    rw [hsplit2]; exact List.mem_append_right _ (List.mem_cons_self _ _)
  obtain ⟨j2, -, rfl⟩ := gtSplits_mem hbrmem
  dsimp only at hbr
  split at hbr
  case isFalse => exact absurd hbr (by simp)
  case isTrue hat =>
  split at hbr
  next cc rr hq =>
    simp only [Option.some.injEq, Prod.mk.injEq] at hbr
    obtain ⟨rfl, rfl, rfl⟩ := hbr
    have e1 : s = inputLit ++ s.drop 6 := by
      obtain ⟨t, rfl⟩ := startsWith_iff.mp hsw
      rw [show (6 : Nat) = inputLit.length from rfl, List.drop_left]
    have e2 : s.drop 6 = (s.drop 6).take j ++ (s.drop 6).drop j :=
      (List.take_append_drop _ _).symm
    have e3 : (s.drop 6).drop j = idLit k ++ ((s.drop 6).drop j).drop (idLit k).length := by
      obtain ⟨t, ht⟩ := startsWith_iff.mp hid
      rw [ht, List.drop_left]
    have e4 : ((s.drop 6).drop j).drop (idLit k).length =
        (((s.drop 6).drop j).drop (idLit k).length).take j2 ++
          (((s.drop 6).drop j).drop (idLit k).length).drop j2 :=
      (List.take_append_drop _ _).symm
    have e5 : (((s.drop 6).drop j).drop (idLit k).length).drop j2 =
        attrLit attr ++
          ((((s.drop 6).drop j).drop (idLit k).length).drop j2).drop (attrLit attr).length := by
      obtain ⟨t, ht⟩ := startsWith_iff.mp hat
      rw [ht, List.drop_left]
    have e6 := splitQuote_eq_some hq
    constructor
    · conv_lhs => rw [e1]
      conv_lhs => rw [e2]
      conv_lhs => rw [e3]
      conv_lhs => rw [e4]
      conv_lhs => rw [e5]
      rw [e6]
      simp [List.append_assoc]
    · simp [inputLit]
  next => exact absurd hbr (by simp)

theorem tryMatch_rest_lt {k attr s g1 c rest : List Char}
    (h : tryMatch k attr s = some (g1, c, rest)) : rest.length < s.length := by
  obtain ⟨hs, hg⟩ := tryMatch_eq_some h
  have := congrArg List.length hs
  simp at this
  omega

theorem goSub_fuel (k attr v : List Char) :
    ∀ n s f1 f2, s.length ≤ n → s.length ≤ f1 → s.length ≤ f2 →
      goSub k attr v f1 s = goSub k attr v f2 s := by
  intro n
  induction n with
  | zero =>
    intro s f1 f2 hn _ _
    have : s = [] := List.length_eq_zero.mp (by omega)
    subst this
    cases f1 <;> cases f2 <;> rfl
  | succ n ih =>
    intro s f1 f2 hn h1 h2
    cases s with
    | nil => cases f1 <;> cases f2 <;> rfl
    | cons ch cs =>
      simp only [List.length_cons] at hn h1 h2
      obtain ⟨f1', rfl⟩ : ∃ m, f1 = m + 1 := ⟨f1 - 1, by omega⟩
      obtain ⟨f2', rfl⟩ : ∃ m, f2 = m + 1 := ⟨f2 - 1, by omega⟩
      rcases hm : tryMatch k attr (ch :: cs) with _ | ⟨g1, cc, rest⟩
      · simp only [goSub, hm]
        rw [ih cs f1' f2' (by omega) (by omega) (by omega)]
      · have hlt := tryMatch_rest_lt hm
        simp only [List.length_cons] at hlt
        simp only [goSub, hm]
        rw [ih rest f1' f2' (by omega) (by omega) (by omega)]

theorem reSub_cons_match {k attr v : List Char} {ch : Char} {cs g1 cnt rest : List Char}
    (h : tryMatch k attr (ch :: cs) = some (g1, cnt, rest)) :
    reSub k attr v (ch :: cs) = g1 ++ v ++ '"' :: reSub k attr v rest := by
  unfold reSub
  simp only [List.length_cons, goSub, h]
  have hlt := tryMatch_rest_lt h
  simp only [List.length_cons] at hlt
  rw [goSub_fuel k attr v rest.length rest cs.length rest.length (by omega) (by omega) (by omega)]

theorem reSub_cons_nomatch {k attr v : List Char} {ch : Char} {cs : List Char}
    (h : tryMatch k attr (ch :: cs) = none) :
    reSub k attr v (ch :: cs) = ch :: reSub k attr v cs := by
  unfold reSub
  simp only [List.length_cons, goSub, h]

theorem reSub_nil (k attr v : List Char) : reSub k attr v [] = [] := rfl

/-! ## Passthrough of non-matching text -/

theorem tryMatch_none_of_not_input {k attr s : List Char}
    (h : startsWith inputLit s = false) : tryMatch k attr s = none := by
  unfold tryMatch
  rw [h]
  rfl

/-- If no anchored match starts inside `s` (as a region of `s ++ t`),
substitution passes `s` through untouched. -/
theorem reSub_append_nomatch {k attr v : List Char} : ∀ {s t : List Char},
    (∀ y, y ≠ [] → (∃ x, x ++ y = s) → tryMatch k attr (y ++ t) = none) →
    reSub k attr v (s ++ t) = s ++ reSub k attr v t := by
  intro s
  induction s with
  | nil => intro t _; rfl
  | cons ch cs ih =>
    intro t h
    have h0 : tryMatch k attr (ch :: (cs ++ t)) = none :=
      h (ch :: cs) (by simp) ⟨[], rfl⟩
    calc reSub k attr v ((ch :: cs) ++ t)
        = ch :: reSub k attr v (cs ++ t) := reSub_cons_nomatch h0
      _ = ch :: (cs ++ reSub k attr v t) := by
          refine congrArg (List.cons ch) (ih ?_)
          rintro y hy ⟨x, hxe⟩
          exact h y hy ⟨ch :: x, by rw [← hxe]; rfl⟩
      _ = (ch :: cs) ++ reSub k attr v t := rfl

/-- A match can only start at a `<`. -/
theorem startsWith_input_head {y t : List Char} (hy : y ≠ [])
    (h : startsWith inputLit (y ++ t) = true) : ∃ y', y = '<' :: y' := by
  cases y with
  | nil => exact absurd rfl hy
  | cons a y' =>
    have := startsWith_getElem? h 0 (by simp [inputLit])
    simp [inputLit] at this
    exact ⟨y', by rw [this]⟩

/-- No match starts in a suffix of inert text, provided the continuation
starts with a `<` (or is empty): the occurrence would lie inside `s`. -/
theorem noMatch_of_raw {k attr : List Char} {s t : List Char}
    (hno : ¬ hasOcc inputLit s) (ht : t = [] ∨ ∃ t', t = '<' :: t') :
    ∀ y, y ≠ [] → (∃ x, x ++ y = s) → tryMatch k attr (y ++ t) = none := by
  rintro y hy ⟨x, rfl⟩
  rcases hsw : startsWith inputLit (y ++ t) with _ | _
  · exact tryMatch_none_of_not_input hsw
  · exfalso
    rcases startsWith_append_split hsw with ⟨hle, hin⟩ | ⟨hlt, htake, hrest⟩
    · exact hno ⟨x.length, by rwa [List.drop_left]⟩
    · have hy1 : 1 ≤ y.length := by
        cases y with
        | nil => exact absurd rfl hy
        | cons _ _ => simp
      have hlen : inputLit.length = 6 := rfl
      rcases ht with rfl | ⟨t', rfl⟩
      · have := startsWith_length hrest
        simp at this
        omega
      · have h5 : y.length ≤ 5 := by
          have h6 : inputLit.length = 6 := rfl
          omega
        have hidx : inputLit[y.length]? = some '<' := by
          have hhead := startsWith_getElem? hrest 0 (by
            simp only [List.length_drop]
            omega)
          rw [List.getElem?_drop] at hhead
          simpa using hhead.symm
        rcases (by omega :
            y.length = 1 ∨ y.length = 2 ∨ y.length = 3 ∨ y.length = 4 ∨ y.length = 5) with
          h1 | h1 | h1 | h1 | h1 <;>
          rw [h1] at hidx <;> exact absurd hidx (by decide)

/-- No match starts strictly inside tag text that ends with `>` and whose
interior contains no `<`. -/
theorem noMatch_of_tagTail {k attr : List Char} {d t : List Char}
    (hd : '<' ∉ d) :
    ∀ y, y ≠ [] → (∃ x, x ++ y = d ++ ['>']) → tryMatch k attr (y ++ t) = none := by
  rintro y hy ⟨x, hx⟩
  rcases hsw : startsWith inputLit (y ++ t) with _ | _
  · exact tryMatch_none_of_not_input hsw
  · exfalso
    obtain ⟨y', rfl⟩ := startsWith_input_head hy hsw
    have hmem : '<' ∈ d ++ ['>'] := by
      rw [← hx]
      exact List.mem_append_right _ (List.mem_cons_self _ _)
    rcases List.mem_append.mp hmem with hin | hin
    · exact hd hin
    · simp at hin

/-! ## Resolving `findSome?` over the greedy split list -/

theorem findSome?_unique {α β : Type} {l : List α} {f : α → Option β} {x : α} {y : β}
    (hmem : x ∈ l) (hx : f x = some y) (hothers : ∀ z ∈ l, z ≠ x → f z = none) :
    l.findSome? f = some y := by
  induction l with
  | nil => exact absurd hmem (by simp)
  | cons a l ih =>
    by_cases ha : a = x
    · subst ha
      rw [List.findSome?_cons, hx]
    · rw [List.findSome?_cons, hothers a (List.mem_cons_self _ _) ha]
      exact ih (by rcases List.mem_cons.mp hmem with h | h; exact absurd h.symm ha; exact h)
        (fun z hz hne => hothers z (List.mem_cons_of_mem _ hz) hne)

theorem findSome?_none {α β : Type} {l : List α} {f : α → Option β}
    (h : ∀ z ∈ l, f z = none) : l.findSome? f = none :=
  List.findSome?_eq_none_iff.mpr h

/-! ## The anchored match at the head of a well-formed tag -/

theorem takeWhile_run {p : Char → Bool} {m : List Char} {x : Char} {t : List Char}
    (hm : ∀ ch ∈ m, p ch = true) (hx : p x = false) :
    (m ++ x :: t).takeWhile p = m := by
  induction m with
  | nil => simp [List.takeWhile_cons, hx]
  | cons a as ih =>
    simp only [List.cons_append, List.takeWhile_cons, hm a (List.mem_cons_self _ _), if_true]
    rw [ih (fun ch h => hm ch (List.mem_cons_of_mem _ h))]

theorem ngtRun_eq {m t : List Char} (hm : ∀ ch ∈ m, ch ≠ '>') :
    ngtRun (m ++ '>' :: t) = m.length := by
  unfold ngtRun
  rw [takeWhile_run (fun ch h => bne_iff_ne.mpr (hm ch h)) (by simp)]

theorem splitQuote_exact {c X : List Char} (hc : ∀ ch ∈ c, ch ≠ '"') :
    splitQuote (c ++ '"' :: X) = some (c, X) := by
  unfold splitQuote
  simp only
  rw [takeWhile_run (fun ch h => bne_iff_ne.mpr (hc ch h)) (by simp)]
  rw [List.drop_left]
  rfl

theorem startsWith_of_append_le {p a b : List Char} (h : startsWith p (a ++ b) = true)
    (hl : p.length ≤ a.length) : startsWith p a = true := by
  obtain ⟨r, hr⟩ := startsWith_iff.mp h
  have hp : a.take p.length = p := by
    have := congrArg (List.take p.length) hr
    rw [List.take_append_of_le_length hl, List.take_left' rfl] at this
    exact this
  refine startsWith_iff.mpr ⟨a.drop p.length, ?_⟩
  conv_lhs => rw [← List.take_append_drop p.length a]
  rw [hp]

theorem mem_of_getElem?_eq {p : List Char} {i : Nat} {c : Char} (h : p[i]? = some c) : c ∈ p := by
  obtain ⟨hlt, rfl⟩ := List.getElem?_eq_some_iff.mp h
  exact List.getElem_mem hlt

/-- A `'>'`-free pattern matching at offset `j` of `m ++ '>' :: t` with
`j ≤ m.length` lies entirely inside `m`. -/
theorem startsWith_confine {p m t : List Char} {j : Nat} (hp : '>' ∉ p) (hj : j ≤ m.length)
    (h : startsWith p ((m ++ '>' :: t).drop j) = true) :
    j + p.length ≤ m.length ∧ startsWith p (m.drop j) = true := by
  rw [List.drop_append_of_le_length hj] at h
  have hle : p.length ≤ (m.drop j).length := by
    by_contra hgt
    push_neg at hgt
    have h1 := startsWith_getElem? h (m.drop j).length (by omega)
    rw [List.getElem?_append_right (le_refl _)] at h1
    simp only [Nat.sub_self, List.getElem?_cons_zero] at h1
    exact hp (mem_of_getElem?_eq h1.symm)
  refine ⟨by simp only [List.length_drop] at hle; omega, startsWith_of_append_le h hle⟩

/-- Positive case: at the head of well-formed tag text the greedy engine
matches with the canonical groups. -/
theorem tryMatch_pos {k attr m a b c d t : List Char}
    (hdec : m = a ++ (idLit k ++ (b ++ (attrLit attr ++ (c ++ '"' :: d)))))
    (hm : ∀ ch ∈ m, ch ≠ '>')
    (hc : ∀ ch ∈ c, ch ≠ '"')
    (hidU : ∀ j, j + (idLit k).length ≤ m.length →
        startsWith (idLit k) (m.drop j) = true → j = a.length)
    (hatU : ∀ j, j + (attrLit attr).length ≤ (b ++ (attrLit attr ++ (c ++ '"' :: d))).length →
        startsWith (attrLit attr) ((b ++ (attrLit attr ++ (c ++ '"' :: d))).drop j) = true →
        j = b.length) :
    tryMatch k attr (inputLit ++ m ++ '>' :: t) =
      some (inputLit ++ a ++ idLit k ++ b ++ attrLit attr, c, d ++ '>' :: t) := by
  have hkgt : '>' ∉ idLit k := fun hmem => hm '>' (by rw [hdec]; simp [hmem]) rfl
  have hagt : '>' ∉ attrLit attr := fun hmem => hm '>' (by rw [hdec]; simp [hmem]) rfl
  have hrest1 : ∀ ch ∈ b ++ (attrLit attr ++ (c ++ '"' :: d)), ch ≠ '>' :=
    fun ch hch => hm ch (by rw [hdec]; simp only [List.mem_append, List.mem_cons] at hch ⊢; tauto)
  have hX : m ++ '>' :: t = a ++ (idLit k ++ ((b ++ (attrLit attr ++ (c ++ '"' :: d))) ++ '>' :: t)) := by
    rw [hdec]; simp [List.append_assoc]
  have halen : a.length ≤ m.length := by
    rw [hdec]; simp only [List.length_append]; omega
  have hblen : b.length ≤ (b ++ (attrLit attr ++ (c ++ '"' :: d))).length := by
    simp only [List.length_append]; omega
  have hdropa : (m ++ '>' :: t).drop a.length =
      idLit k ++ ((b ++ (attrLit attr ++ (c ++ '"' :: d))) ++ '>' :: t) := by
    rw [hX, List.drop_left]
  have htakea : (m ++ '>' :: t).take a.length = a := by
    rw [hX, List.take_left]
  have hr1 : (b ++ (attrLit attr ++ (c ++ '"' :: d))) ++ '>' :: t =
      b ++ (attrLit attr ++ (c ++ '"' :: (d ++ '>' :: t))) := by
    simp [List.append_assoc]
  unfold tryMatch
  rw [List.append_assoc, if_pos (startsWith_append _ _)]
  rw [show (6 : Nat) = inputLit.length from rfl, List.drop_left]
  refine findSome?_unique (x := ((m ++ '>' :: t).take a.length, (m ++ '>' :: t).drop a.length))
    (gtSplits_self_mem (by rw [ngtRun_eq hm]; exact halen)) ?_ ?_
  · dsimp only
    rw [hdropa, if_pos (startsWith_append _ _), List.drop_left, hr1]
    refine findSome?_unique
      (x := ((b ++ (attrLit attr ++ (c ++ '"' :: (d ++ '>' :: t)))).take b.length,
             (b ++ (attrLit attr ++ (c ++ '"' :: (d ++ '>' :: t)))).drop b.length))
      (gtSplits_self_mem ?_) ?_ ?_
    · have : attrLit attr ++ (c ++ '"' :: (d ++ '>' :: t)) =
          (attrLit attr ++ (c ++ ['"'] ++ d)) ++ '>' :: t := by simp [List.append_assoc]
      rw [show b ++ (attrLit attr ++ (c ++ '"' :: (d ++ '>' :: t))) =
          (b ++ (attrLit attr ++ (c ++ ['"'] ++ d))) ++ '>' :: t by simp [List.append_assoc]]
      rw [ngtRun_eq (by
        intro ch hch
        refine hrest1 ch ?_
        simp only [List.mem_append, List.mem_cons] at hch ⊢
        tauto)]
      simp only [List.length_append]
      omega
    · dsimp only
      rw [List.drop_left, if_pos (startsWith_append _ _), List.drop_left,
        splitQuote_exact hc, List.take_left, htakea]
    · rintro z hz hne
      obtain ⟨j2, hj2, rfl⟩ := gtSplits_mem hz
      dsimp only
      rcases hsw2 : startsWith (attrLit attr)
          ((b ++ (attrLit attr ++ (c ++ '"' :: (d ++ '>' :: t)))).drop j2) with _ | _
      · simp [hsw2]
      · exfalso
        rw [show b ++ (attrLit attr ++ (c ++ '"' :: (d ++ '>' :: t))) =
            (b ++ (attrLit attr ++ (c ++ '"' :: d))) ++ '>' :: t by simp [List.append_assoc]] at hsw2 hj2
        rw [ngtRun_eq hrest1] at hj2
        obtain ⟨hb2, hsw2'⟩ := startsWith_confine hagt hj2 hsw2
        have := hatU j2 hb2 hsw2'
        subst this
        exact hne rfl
  · rintro z hz hne
    obtain ⟨j, hj, rfl⟩ := gtSplits_mem hz
    dsimp only
    rcases hsw1 : startsWith (idLit k) ((m ++ '>' :: t).drop j) with _ | _
    · simp [hsw1]
    · exfalso
      rw [ngtRun_eq hm] at hj
      obtain ⟨hb1, hsw1'⟩ := startsWith_confine hkgt hj hsw1
      have := hidU j hb1 hsw1'
      subst this
      exact hne rfl

/-- Negative case: no match at the head of tag text when no id/attribute
combination occurs inside it. -/
theorem tryMatch_neg {k attr m t : List Char}
    (hm : ∀ ch ∈ m, ch ≠ '>')
    (hkgt : '>' ∉ idLit k)
    (hagt : '>' ∉ attrLit attr)
    (h : ∀ j, j + (idLit k).length ≤ m.length → startsWith (idLit k) (m.drop j) = true →
         ∀ j2, j2 + (attrLit attr).length ≤ m.length - (j + (idLit k).length) →
           startsWith (attrLit attr) ((m.drop (j + (idLit k).length)).drop j2) = true → False) :
    tryMatch k attr (inputLit ++ m ++ '>' :: t) = none := by
  unfold tryMatch
  rw [List.append_assoc, if_pos (startsWith_append _ _)]
  rw [show (6 : Nat) = inputLit.length from rfl, List.drop_left]
  refine findSome?_none ?_
  rintro z hz
  obtain ⟨j, hj, rfl⟩ := gtSplits_mem hz
  dsimp only
  rcases hsw1 : startsWith (idLit k) ((m ++ '>' :: t).drop j) with _ | _
  · simp [hsw1]
  · rw [ngtRun_eq hm] at hj
    obtain ⟨hb1, hsw1'⟩ := startsWith_confine hkgt hj hsw1
    rw [if_pos rfl]
    have hreg : ((m ++ '>' :: t).drop j).drop (idLit k).length =
        m.drop (j + (idLit k).length) ++ '>' :: t := by
      rw [List.drop_append_of_le_length hj, List.drop_append_of_le_length
        (by simp only [List.length_drop]; omega), List.drop_drop]
    rw [hreg]
    refine findSome?_none ?_
    rintro z2 hz2
    obtain ⟨j2, hj2, rfl⟩ := gtSplits_mem hz2
    dsimp only
    rcases hsw2 : startsWith (attrLit attr)
        ((m.drop (j + (idLit k).length) ++ '>' :: t).drop j2) with _ | _
    · simp [hsw2]
    · exfalso
      rw [ngtRun_eq (fun ch hch => hm ch (List.mem_of_mem_drop hch))] at hj2
      obtain ⟨hb2, hsw2'⟩ := startsWith_confine hagt hj2 hsw2
      exact h j hb1 hsw1' j2 (by simp only [List.length_drop] at hb2 ⊢; omega) hsw2'

/-! ## Where pattern literals can occur inside well-formed tag text

The only `=` characters of well-formed tag text are the ones of `id="`,
`value="` and `placeholder="`; every occurrence of a pattern literal is
pinned down by the position of its `=`. -/

theorem getElem?_append_cases {x y : List Char} {i : Nat} {c : Char}
    (h : (x ++ y)[i]? = some c) :
    (i < x.length ∧ x[i]? = some c) ∨ (x.length ≤ i ∧ y[i - x.length]? = some c) := by
  rcases lt_or_le i x.length with hlt | hle
  · exact Or.inl ⟨hlt, by rwa [List.getElem?_append_left hlt] at h⟩
  · exact Or.inr ⟨hle, by rwa [List.getElem?_append_right hle] at h⟩

theorem getElem?_chunk {x y z : List Char} {o : Nat} (ho : o < y.length) :
    (x ++ (y ++ z))[x.length + o]? = y[o]? := by
  rw [List.getElem?_append_right (by omega)]
  rw [Nat.add_sub_cancel_left]
  rw [List.getElem?_append_left ho]

theorem goodStr_no_eqch {x : List Char} (hx : GoodStr x) {i : Nat}
    (h : x[i]? = some '=') : False :=
  (hx '=' (mem_of_getElem?_eq h)).2.2.2 rfl

theorem getElem?_lt_length {x : List Char} {i : Nat} {c : Char} (h : x[i]? = some c) :
    i < x.length := by
  by_contra hge
  rw [List.getElem?_eq_none (by omega)] at h
  exact absurd h (by simp)

theorem eqIdx_idHead {i : Nat} (h : ("id=\"".toList)[i]? = some '=') : i = 2 := by
  have hlt : i < 4 := getElem?_lt_length h
  interval_cases i <;> revert h <;> decide

theorem eqIdx_valueLit {i : Nat} (h : (attrLit valueAttr)[i]? = some '=') : i = 5 := by
  have hlt : i < 7 := getElem?_lt_length h
  interval_cases i <;> revert h <;> decide

theorem eqIdx_phLit {i : Nat} (h : (attrLit placeholderAttr)[i]? = some '=') : i = 11 := by
  have hlt : i < 13 := getElem?_lt_length h
  interval_cases i <;> revert h <;> decide

theorem eqIdx_idLit {id : List Char} (hid : GoodStr id) {i : Nat}
    (h : (idLit id)[i]? = some '=') : i = 2 := by
  unfold idLit at h
  rw [List.append_assoc] at h
  rcases getElem?_append_cases h with ⟨_, h1⟩ | ⟨hge, h1⟩
  · exact eqIdx_idHead h1
  · exfalso
    rcases getElem?_append_cases h1 with ⟨_, h2⟩ | ⟨hge2, h2⟩
    · exact goodStr_no_eqch hid h2
    · have hb := getElem?_lt_length h2
      simp only [List.length_cons, List.length_nil] at hb
      have h0 : i - ("id=\"".toList).length - id.length = 0 := by omega
      rw [h0] at h2
      exact absurd h2 (by decide)

/-- Classification of the `=` characters of the placeholder part. -/
theorem eqIdx_phPart {a3 p : List Char} (ha3 : GoodStr a3) (hp : GoodStr p) {i : Nat}
    (h : (phPart (some (a3, p)))[i]? = some '=') : i = a3.length + 11 := by
  simp only [phPart] at h
  rw [List.append_assoc, List.append_assoc] at h
  rcases getElem?_append_cases h with ⟨_, h1⟩ | ⟨hge, h1⟩
  · exact absurd h1 (fun hc => goodStr_no_eqch ha3 hc)
  · rcases getElem?_append_cases h1 with ⟨hlt2, h2⟩ | ⟨hge2, h2⟩
    · have := eqIdx_phLit h2
      omega
    · exfalso
      rcases getElem?_append_cases h2 with ⟨_, h3⟩ | ⟨hge3, h3⟩
      · exact goodStr_no_eqch hp h3
      · have hb := getElem?_lt_length h3
        simp only [List.length_cons, List.length_nil] at hb
        have h0 : i - a3.length - (attrLit placeholderAttr).length - p.length = 0 := by omega
        rw [h0] at h3
        exact absurd h3 (by decide)

/-- Classification of the `=` characters of the after-id region. -/
theorem eqIdx_regionM {a2 old : List Char} {ph : Option (List Char × List Char)}
    (ha2 : GoodStr a2) (hold : GoodStr old) (hph : phGood ph) {i : Nat}
    (h : (regionM a2 old ph)[i]? = some '=') :
    i = a2.length + 5 ∨
      ∃ a3 p, ph = some (a3, p) ∧ i = a2.length + 7 + old.length + 1 + a3.length + 11 := by
  unfold regionM at h
  rcases getElem?_append_cases h with ⟨_, h1⟩ | ⟨hge, h1⟩
  · exact absurd h1 (fun hc => goodStr_no_eqch ha2 hc)
  · rcases getElem?_append_cases h1 with ⟨hlt2, h2⟩ | ⟨hge2, h2⟩
    · have h5 := eqIdx_valueLit h2
      left
      have h7 : (attrLit valueAttr).length = 7 := rfl
      omega
    · rcases getElem?_append_cases h2 with ⟨_, h3⟩ | ⟨hge3, h3⟩
      · exact absurd h3 (fun hc => goodStr_no_eqch hold hc)
      · rw [List.getElem?_cons] at h3
        split at h3
        · exact absurd h3 (by decide)
        · rcases ph with _ | ⟨a3, p⟩
          · exfalso
            have hb := getElem?_lt_length h3
            simp [phPart] at hb
          · obtain ⟨ha3, hp⟩ := hph
            have hcl := eqIdx_phPart ha3 hp h3
            right
            refine ⟨a3, p, rfl, ?_⟩
            have h7 : (attrLit valueAttr).length = 7 := rfl
            omega

/-- Classification of the `=` characters of whole tag text. -/
theorem eqIdx_tagM {a1 id a2 old : List Char} {ph : Option (List Char × List Char)}
    (ha1 : GoodStr a1) (hid : GoodStr id) (ha2 : GoodStr a2) (hold : GoodStr old)
    (hph : phGood ph) {i : Nat}
    (h : (tagM a1 id a2 old ph)[i]? = some '=') :
    i = a1.length + 2 ∨ i = a1.length + (idLit id).length + a2.length + 5 ∨
      ∃ a3 p, ph = some (a3, p) ∧
        i = a1.length + (idLit id).length + a2.length + 7 + old.length + 1 + a3.length + 11 := by
  unfold tagM at h
  rcases getElem?_append_cases h with ⟨_, h1⟩ | ⟨hge, h1⟩
  · exact absurd h1 (fun hc => goodStr_no_eqch ha1 hc)
  · rcases getElem?_append_cases h1 with ⟨hlt2, h2⟩ | ⟨hge2, h2⟩
    · have hcl := eqIdx_idLit hid h2
      left
      omega
    · have hr : (regionM a2 old ph)[i - a1.length - (idLit id).length]? = some '=' := h2
      rcases eqIdx_regionM ha2 hold hph hr with h3 | ⟨a3, p, hph3, h3⟩
      · right; left
        omega
      · right; right
        exact ⟨a3, p, hph3, by omega⟩

/-! ## Uniqueness of literal occurrences in well-formed tag text -/

theorem startsWith_drop_getElem? {p s : List Char} {j : Nat}
    (h : startsWith p (s.drop j) = true) (o : Nat) (ho : o < p.length) :
    s[j + o]? = p[o]? := by
  have hg := startsWith_getElem? h o ho
  rw [List.getElem?_drop] at hg
  exact hg

theorem idLit_two {k : List Char} : (idLit k)[2]? = some '=' := by
  unfold idLit
  rw [List.append_assoc]
  rw [List.getElem?_append_left (by rw [show ("id=\"".toList).length = 4 from rfl]; omega)]
  rfl

theorem idLit_zero {k : List Char} : (idLit k)[0]? = some 'i' := by
  unfold idLit
  rw [List.append_assoc]
  rw [List.getElem?_append_left (by rw [show ("id=\"".toList).length = 4 from rfl]; omega)]
  rfl

/-- Two good keys followed by a closing quote match only if equal. -/
theorem key_eq_of_startsWith {k id R : List Char} (hk : GoodStr k) (hid : GoodStr id)
    (h : startsWith (k ++ ['"']) (id ++ '"' :: R) = true) : k = id := by
  induction k generalizing id with
  | nil =>
    cases id with
    | nil => rfl
    | cons b id' =>
      exfalso
      simp only [List.nil_append, List.cons_append, startsWith, Bool.and_eq_true,
        beq_iff_eq] at h
      exact (hid b (List.mem_cons_self _ _)).2.2.1 h.1.symm
  | cons a k' ih =>
    cases id with
    | nil =>
      exfalso
      simp only [List.cons_append, List.nil_append, startsWith, Bool.and_eq_true,
        beq_iff_eq] at h
      exact (hk a (List.mem_cons_self _ _)).2.2.1 h.1
    | cons b id' =>
      simp only [List.cons_append, startsWith, Bool.and_eq_true, beq_iff_eq] at h
      have := ih (fun c hc => hk c (List.mem_cons_of_mem _ hc))
        (fun c hc => hid c (List.mem_cons_of_mem _ hc)) h.2
      rw [h.1, this]

/-- In well-formed tag text, `id="k"` occurs only at the canonical place,
and only for the tag's own id. -/
theorem idOcc_tagM {k a1 id a2 old : List Char} {ph : Option (List Char × List Char)}
    (hk : GoodStr k) (ha1 : GoodStr a1) (hid : GoodStr id) (ha2 : GoodStr a2)
    (hold : GoodStr old) (hph : phGood ph) :
    ∀ j, j + (idLit k).length ≤ (tagM a1 id a2 old ph).length →
      startsWith (idLit k) ((tagM a1 id a2 old ph).drop j) = true →
      j = a1.length ∧ k = id := by
  intro j hj hsw
  have hlen5 : (idLit k).length = k.length + 5 := by simp [idLit]
  have heq : (tagM a1 id a2 old ph)[j + 2]? = some '=' :=
    (startsWith_drop_getElem? hsw 2 (by omega)).trans idLit_two
  have hi : (tagM a1 id a2 old ph)[j]? = some 'i' := by
    have h0 := startsWith_drop_getElem? hsw 0 (by omega)
    rw [Nat.add_zero] at h0
    exact h0.trans idLit_zero
  have hvlen : (attrLit valueAttr).length = 7 := rfl
  have hplen : (attrLit placeholderAttr).length = 13 := rfl
  have hs1 : tagM a1 id a2 old ph =
      (a1 ++ idLit id ++ a2) ++ (attrLit valueAttr ++ (old ++ '"' :: phPart ph)) := by
    simp [tagM, List.append_assoc]
  rcases eqIdx_tagM ha1 hid ha2 hold hph heq with h1 | h1 | ⟨a3, p, hph3, h1⟩
  · have hja : j = a1.length := by omega
    subst hja
    refine ⟨rfl, ?_⟩
    have hdrop : (tagM a1 id a2 old ph).drop a1.length = idLit id ++ regionM a2 old ph := by
      rw [show tagM a1 id a2 old ph = a1 ++ (idLit id ++ regionM a2 old ph) from rfl,
        List.drop_left]
    rw [hdrop] at hsw
    rw [show idLit k = "id=\"".toList ++ (k ++ ['"']) by simp [idLit]] at hsw
    obtain ⟨-, hsw2⟩ := startsWith_append_elim hsw
    rw [show idLit id ++ regionM a2 old ph =
        "id=\"".toList ++ (id ++ '"' :: regionM a2 old ph) by simp [idLit], List.drop_left]
      at hsw2
    exact key_eq_of_startsWith hk hid hsw2
  · exfalso
    have hu : (tagM a1 id a2 old ph)[j]? = some 'u' := by
      rw [hs1]
      rw [show j = (a1 ++ idLit id ++ a2).length + 3 by
        simp only [List.length_append]; omega]
      rw [getElem?_chunk (by omega)]
      rfl
    rw [hi] at hu
    exact absurd hu (by decide)
  · exfalso
    subst hph3
    have hs2 : tagM a1 id a2 old (some (a3, p)) =
        (a1 ++ idLit id ++ a2 ++ attrLit valueAttr ++ old ++ ['"'] ++ a3) ++
          (attrLit placeholderAttr ++ (p ++ ['"'])) := by
      simp [tagM, phPart, List.append_assoc]
    have he : (tagM a1 id a2 old (some (a3, p)))[j]? = some 'e' := by
      rw [hs2]
      rw [show j = (a1 ++ idLit id ++ a2 ++ attrLit valueAttr ++ old ++ ['"'] ++ a3).length + 9 by
        simp only [List.length_append, List.length_cons, List.length_nil]
        omega]
      rw [getElem?_chunk (by omega)]
      rfl
    rw [hi] at he
    exact absurd he (by decide)

/-- In the after-id region, `value="` occurs only at the canonical place. -/
theorem valueOcc_regionM {a2 old : List Char} {ph : Option (List Char × List Char)}
    (ha2 : GoodStr a2) (hold : GoodStr old) (hph : phGood ph) :
    ∀ j, j + (attrLit valueAttr).length ≤ (regionM a2 old ph).length →
      startsWith (attrLit valueAttr) ((regionM a2 old ph).drop j) = true → j = a2.length := by
  intro j hj hsw
  have hvlen : (attrLit valueAttr).length = 7 := rfl
  have hplen : (attrLit placeholderAttr).length = 13 := rfl
  have heq : (regionM a2 old ph)[j + 5]? = some '=' :=
    (startsWith_drop_getElem? hsw 5 (by omega)).trans (by decide)
  rcases eqIdx_regionM ha2 hold hph heq with h1 | ⟨a3, p, hph3, h1⟩
  · omega
  · exfalso
    subst hph3
    have hv : (regionM a2 old (some (a3, p)))[j]? = some 'v' := by
      have h0 := startsWith_drop_getElem? hsw 0 (by omega)
      rw [Nat.add_zero] at h0
      exact h0.trans (by decide)
    have ho : (regionM a2 old (some (a3, p)))[j]? = some 'o' := by
      have hs2 : regionM a2 old (some (a3, p)) =
          (a2 ++ attrLit valueAttr ++ old ++ ['"'] ++ a3) ++
            (attrLit placeholderAttr ++ (p ++ ['"'])) := by
        simp [regionM, phPart, List.append_assoc]
      rw [hs2]
      rw [show j = (a2 ++ attrLit valueAttr ++ old ++ ['"'] ++ a3).length + 6 by
        simp only [List.length_append, List.length_cons, List.length_nil]
        omega]
      rw [getElem?_chunk (by omega)]
      rfl
    rw [hv] at ho
    exact absurd ho (by decide)

/-- In the after-id region of a tag that has a placeholder attribute,
`placeholder="` occurs only at the canonical place. -/
theorem phOcc_regionM_some {a2 old a3 p : List Char}
    (ha2 : GoodStr a2) (hold : GoodStr old) (ha3 : GoodStr a3) (hp : GoodStr p) :
    ∀ j, j + (attrLit placeholderAttr).length ≤ (regionM a2 old (some (a3, p))).length →
      startsWith (attrLit placeholderAttr) ((regionM a2 old (some (a3, p))).drop j) = true →
      j = a2.length + 7 + old.length + 1 + a3.length := by
  intro j hj hsw
  have hplen : (attrLit placeholderAttr).length = 13 := rfl
  have hvlen : (attrLit valueAttr).length = 7 := rfl
  have heq : (regionM a2 old (some (a3, p)))[j + 11]? = some '=' :=
    (startsWith_drop_getElem? hsw 11 (by omega)).trans (by decide)
  rcases eqIdx_regionM ha2 hold (show phGood (some (a3, p)) from ⟨ha3, hp⟩) heq with h1 | ⟨a3', p', hph3, h1⟩
  · exfalso
    have ho : (regionM a2 old (some (a3, p)))[j + 6]? = some 'o' :=
      (startsWith_drop_getElem? hsw 6 (by omega)).trans (by decide)
    have hv : (regionM a2 old (some (a3, p)))[j + 6]? = some 'v' := by
      have hs2 : regionM a2 old (some (a3, p)) =
          a2 ++ (attrLit valueAttr ++ (old ++ '"' :: phPart (some (a3, p)))) := rfl
      rw [hs2]
      rw [show j + 6 = a2.length + 0 by omega]
      rw [getElem?_chunk (by omega)]
      rfl
    rw [ho] at hv
    exact absurd hv (by decide)
  · simp only [Option.some.injEq, Prod.mk.injEq] at hph3
    obtain ⟨rfl, rfl⟩ := hph3
    omega

/-- In the after-id region of a tag without a placeholder attribute,
`placeholder="` does not occur at all. -/
theorem phOcc_regionM_none {a2 old : List Char}
    (ha2 : GoodStr a2) (hold : GoodStr old) :
    ∀ j, j + (attrLit placeholderAttr).length ≤ (regionM a2 old none).length →
      startsWith (attrLit placeholderAttr) ((regionM a2 old none).drop j) = true → False := by
  intro j hj hsw
  have hplen : (attrLit placeholderAttr).length = 13 := rfl
  have hvlen : (attrLit valueAttr).length = 7 := rfl
  have heq : (regionM a2 old none)[j + 11]? = some '=' :=
    (startsWith_drop_getElem? hsw 11 (by omega)).trans (by decide)
  rcases eqIdx_regionM ha2 hold (show phGood none from trivial) heq with h1 | ⟨a3', p', hph3, h1⟩
  · have ho : (regionM a2 old none)[j + 6]? = some 'o' :=
      (startsWith_drop_getElem? hsw 6 (by omega)).trans (by decide)
    have hv : (regionM a2 old none)[j + 6]? = some 'v' := by
      rw [show regionM a2 old none =
        a2 ++ (attrLit valueAttr ++ (old ++ '"' :: phPart none)) from rfl]
      rw [show j + 6 = a2.length + 0 by omega]
      rw [getElem?_chunk (by omega)]
      rfl
    rw [ho] at hv
    exact absurd hv (by decide)
  · exact absurd hph3 (by simp)

/-! ## Substitution on one well-formed tag -/

theorem chars_append {P : Char → Prop} {x y : List Char}
    (hx : ∀ ch ∈ x, P ch) (hy : ∀ ch ∈ y, P ch) : ∀ ch ∈ x ++ y, P ch := by
  intro ch hch
  rcases List.mem_append.mp hch with h | h
  exacts [hx ch h, hy ch h]

theorem chars_cons {P : Char → Prop} {c : Char} {y : List Char}
    (hc : P c) (hy : ∀ ch ∈ y, P ch) : ∀ ch ∈ c :: y, P ch := by
  intro ch hch
  rcases List.mem_cons.mp hch with rfl | h
  exacts [hc, hy ch h]

theorem goodChars {x : List Char} (hx : GoodStr x) :
    ∀ ch ∈ x, ch ≠ '>' ∧ ch ≠ '<' :=
  fun ch h => ⟨(hx ch h).2.1, (hx ch h).1⟩

theorem idLit_chars {id : List Char} (hid : GoodStr id) :
    ∀ ch ∈ idLit id, ch ≠ '>' ∧ ch ≠ '<' := by
  unfold idLit
  exact chars_append (chars_append (by decide) (goodChars hid)) (by decide)

theorem phPart_chars {ph : Option (List Char × List Char)} (hph : phGood ph) :
    ∀ ch ∈ phPart ph, ch ≠ '>' ∧ ch ≠ '<' := by
  rcases ph with _ | ⟨a3, p⟩
  · intro ch hch
    simp [phPart] at hch
  · obtain ⟨ha3, hp⟩ := hph
    unfold phPart
    exact chars_append
      (chars_append (chars_append (goodChars ha3) (by decide)) (goodChars hp)) (by decide)

theorem tagM_chars {a1 id a2 old : List Char} {ph : Option (List Char × List Char)}
    (ha1 : GoodStr a1) (hid : GoodStr id) (ha2 : GoodStr a2) (hold : GoodStr old)
    (hph : phGood ph) : ∀ ch ∈ tagM a1 id a2 old ph, ch ≠ '>' ∧ ch ≠ '<' := by
  unfold tagM
  exact chars_append (goodChars ha1) (chars_append (idLit_chars hid)
    (chars_append (goodChars ha2) (chars_append (by decide)
      (chars_append (goodChars hold) (chars_cons (by decide) (phPart_chars hph))))))

theorem tagM_no_gt {a1 id a2 old : List Char} {ph : Option (List Char × List Char)}
    (ha1 : GoodStr a1) (hid : GoodStr id) (ha2 : GoodStr a2) (hold : GoodStr old)
    (hph : phGood ph) : ∀ ch ∈ tagM a1 id a2 old ph, ch ≠ '>' :=
  fun ch h => (tagM_chars ha1 hid ha2 hold hph ch h).1

theorem idLit_no_gt {k : List Char} (hk : GoodStr k) : '>' ∉ idLit k :=
  fun hmem => (idLit_chars hk '>' hmem).1 rfl

/-- A successful anchored match rewrites the head of the string. -/
theorem reSub_match {k attr v s g1 cnt rest : List Char} (hs : s ≠ [])
    (h : tryMatch k attr s = some (g1, cnt, rest)) :
    reSub k attr v s = g1 ++ v ++ '"' :: reSub k attr v rest := by
  cases s with
  | nil => exact absurd rfl hs
  | cons ch cs => exact reSub_cons_match h

/-- Inside `'<' :: s` with no further `<`, no match can start after the head. -/
theorem noMatch_of_inside {k attr : List Char} {s t : List Char}
    (hs : ∀ ch ∈ s, ch ≠ '<')
    (full : tryMatch k attr (('<' :: s) ++ t) = none) :
    ∀ y, y ≠ [] → (∃ x, x ++ y = '<' :: s) → tryMatch k attr (y ++ t) = none := by
  rintro y hy ⟨x, hx⟩
  cases x with
  | nil =>
    simp only [List.nil_append] at hx
    rw [hx]
    exact full
  | cons c x' =>
    rcases hsw : startsWith inputLit (y ++ t) with _ | _
    · exact tryMatch_none_of_not_input hsw
    · exfalso
      obtain ⟨y', rfl⟩ := startsWith_input_head hy hsw
      have hinj : x' ++ '<' :: y' = s := by
        have := hx
        rw [List.cons_append] at this
        injection this with h1 h2
      exact hs '<' (by rw [← hinj]; exact List.mem_append_right _ (List.mem_cons_self _ _)) rfl

/-- The text of a tag, made explicit for the matcher. -/
theorem flat_tag_eq (a1 id a2 old : List Char) (ph : Option (List Char × List Char))
    (t : List Char) :
    Seg.flat (.tag a1 id a2 old ph) ++ t = inputLit ++ tagM a1 id a2 old ph ++ '>' :: t := by
  simp [Seg.flat, tagM, List.append_assoc]

theorem flat_tag_cons (a1 id a2 old : List Char) (ph : Option (List Char × List Char))
    (t : List Char) :
    inputLit ++ tagM a1 id a2 old ph ++ '>' :: t =
      '<' :: (("input".toList ++ (tagM a1 id a2 old ph ++ ['>'])) ++ t) := by
  rw [show inputLit = '<' :: "input".toList from rfl]
  simp [List.append_assoc]

/-- The substitution for key `k` on a tag with id `k` rewrites the value. -/
theorem reSub_tag_value_hit {k v a1 a2 old : List Char} {ph : Option (List Char × List Char)}
    {t : List Char} (hk : GoodStr k) (ha1 : GoodStr a1) (ha2 : GoodStr a2)
    (hold : GoodStr old) (hph : phGood ph) :
    reSub k valueAttr v (Seg.flat (.tag a1 k a2 old ph) ++ t) =
      Seg.flat (.tag a1 k a2 v ph) ++ reSub k valueAttr v t := by
  rw [flat_tag_eq]
  have hmatch : tryMatch k valueAttr (inputLit ++ tagM a1 k a2 old ph ++ '>' :: t) =
      some (inputLit ++ a1 ++ idLit k ++ a2 ++ attrLit valueAttr, old, phPart ph ++ '>' :: t) := by
    refine tryMatch_pos rfl (tagM_no_gt ha1 hk ha2 hold hph)
      (fun ch h => (hold ch h).2.2.1) ?_ ?_
    · exact fun j hb hsw => (idOcc_tagM hk ha1 hk ha2 hold hph j hb hsw).1
    · exact fun j hb hsw => valueOcc_regionM ha2 hold hph j hb hsw
  rw [reSub_match (by simp [inputLit]) hmatch]
  rw [show phPart ph ++ '>' :: t = (phPart ph ++ ['>']) ++ t by simp]
  rw [reSub_append_nomatch (t := t) (s := phPart ph ++ ['>'])
    (noMatch_of_tagTail (fun hmem => (phPart_chars hph '<' hmem).2 rfl))]
  simp [Seg.flat, List.append_assoc]

/-- A substitution for key `k` passes over a tag with a different id
(for either attribute). -/
theorem reSub_tag_miss {k attr v a1 id a2 old : List Char}
    {ph : Option (List Char × List Char)} {t : List Char} (hk : GoodStr k)
    (hattr : '>' ∉ attrLit attr)
    (ha1 : GoodStr a1) (hid : GoodStr id) (ha2 : GoodStr a2)
    (hold : GoodStr old) (hph : phGood ph) (hne : id ≠ k) :
    reSub k attr v (Seg.flat (.tag a1 id a2 old ph) ++ t) =
      Seg.flat (.tag a1 id a2 old ph) ++ reSub k attr v t := by
  have hfull : tryMatch k attr (inputLit ++ tagM a1 id a2 old ph ++ '>' :: t) = none := by
    refine tryMatch_neg (tagM_no_gt ha1 hid ha2 hold hph) (idLit_no_gt hk) hattr ?_
    intro j hb hsw j2 _ _
    exact hne ((idOcc_tagM hk ha1 hid ha2 hold hph j hb hsw).2.symm)
  refine reSub_append_nomatch ?_
  rw [show Seg.flat (.tag a1 id a2 old ph) =
      '<' :: ("input".toList ++ (tagM a1 id a2 old ph ++ ['>'])) by
    have := flat_tag_cons a1 id a2 old ph []
    rw [← flat_tag_eq] at this
    simpa using this]
  refine noMatch_of_inside ?_ ?_
  · refine chars_append (by decide) (chars_append
      (fun ch h => (tagM_chars ha1 hid ha2 hold hph ch h).2) (by decide))
  · rw [show ('<' :: ("input".toList ++ (tagM a1 id a2 old ph ++ ['>']))) ++ t =
        inputLit ++ tagM a1 id a2 old ph ++ '>' :: t by
      rw [show inputLit = '<' :: "input".toList from rfl]
      simp [List.append_assoc]]
    exact hfull

/-- The placeholder substitution rewrites the placeholder of a tag with
id `k` that carries a placeholder attribute. -/
theorem reSub_tag_ph_hit {k pnew a1 a2 old a3 p : List Char} {t : List Char}
    (hk : GoodStr k) (ha1 : GoodStr a1) (ha2 : GoodStr a2) (hold : GoodStr old)
    (ha3 : GoodStr a3) (hp : GoodStr p) :
    reSub k placeholderAttr pnew (Seg.flat (.tag a1 k a2 old (some (a3, p))) ++ t) =
      Seg.flat (.tag a1 k a2 old (some (a3, pnew))) ++ reSub k placeholderAttr pnew t := by
  rw [flat_tag_eq]
  have hEq : (a2 ++ attrLit valueAttr ++ old ++ ['"'] ++ a3) ++
      (attrLit placeholderAttr ++ (p ++ '"' :: ([] : List Char))) =
      regionM a2 old (some (a3, p)) := by
    simp [regionM, phPart, List.append_assoc]
  have hmatch : tryMatch k placeholderAttr
      (inputLit ++ tagM a1 k a2 old (some (a3, p)) ++ '>' :: t) =
      some (inputLit ++ a1 ++ idLit k ++ (a2 ++ attrLit valueAttr ++ old ++ ['"'] ++ a3) ++
        attrLit placeholderAttr, p, [] ++ '>' :: t) := by
    refine tryMatch_pos ?_ (tagM_no_gt ha1 hk ha2 hold (show phGood (some (a3, p)) from ⟨ha3, hp⟩))
      (fun ch h => (hp ch h).2.2.1) ?_ ?_
    · simp [tagM, phPart, regionM, List.append_assoc]
    · exact fun j hb hsw =>
        (idOcc_tagM hk ha1 hk ha2 hold (show phGood (some (a3, p)) from ⟨ha3, hp⟩) j hb hsw).1
    · intro j hb hsw
      rw [hEq] at hb hsw
      have hj := phOcc_regionM_some ha2 hold ha3 hp j hb hsw
      have hvlen : (attrLit valueAttr).length = 7 := rfl
      simp only [List.length_append, List.length_cons, List.length_nil]
      omega
  rw [reSub_match (by simp [inputLit]) hmatch]
  rw [show ([] : List Char) ++ '>' :: t = ['>'] ++ t by simp]
  rw [reSub_append_nomatch (t := t) (s := ['>'])
    (noMatch_of_tagTail (d := []) (by simp))]
  simp [Seg.flat, phPart, List.append_assoc]

/-- The placeholder substitution is a no-op on a tag with id `k` but
no placeholder attribute. -/
theorem reSub_tag_ph_none {k pnew a1 a2 old : List Char} {t : List Char}
    (hk : GoodStr k) (ha1 : GoodStr a1) (ha2 : GoodStr a2) (hold : GoodStr old) :
    reSub k placeholderAttr pnew (Seg.flat (.tag a1 k a2 old none) ++ t) =
      Seg.flat (.tag a1 k a2 old none) ++ reSub k placeholderAttr pnew t := by
  have hshape : tagM a1 k a2 old none = (a1 ++ idLit k) ++ regionM a2 old none := by
    simp [tagM, regionM, List.append_assoc]
  have hlen : (tagM a1 k a2 old none).length =
      a1.length + (idLit k).length + (regionM a2 old none).length := by
    rw [hshape]
    simp [List.length_append]
    omega
  have hfull : tryMatch k placeholderAttr
      (inputLit ++ tagM a1 k a2 old none ++ '>' :: t) = none := by
    refine tryMatch_neg (tagM_no_gt ha1 hk ha2 hold (show phGood none from trivial))
      (idLit_no_gt hk) (by decide) ?_
    intro j hb hsw j2 hb2 hsw2
    obtain ⟨hja, -⟩ := idOcc_tagM hk ha1 hk ha2 hold (show phGood none from trivial) j hb hsw
    subst hja
    have hreg : (tagM a1 k a2 old none).drop (a1.length + (idLit k).length) =
        regionM a2 old none := by
      rw [hshape, List.drop_left' (by simp)]
    rw [hreg] at hsw2
    exact phOcc_regionM_none ha2 hold j2 (by omega) hsw2
  refine reSub_append_nomatch ?_
  rw [show Seg.flat (.tag a1 k a2 old none) =
      '<' :: ("input".toList ++ (tagM a1 k a2 old none ++ ['>'])) by
    have h1 := flat_tag_cons a1 k a2 old none []
    rw [← flat_tag_eq] at h1
    simpa using h1]
  refine noMatch_of_inside ?_ ?_
  · exact chars_append (by decide) (chars_append
      (fun ch h => (tagM_chars ha1 hk ha2 hold (show phGood none from trivial) ch h).2) (by decide))
  · rw [show ('<' :: ("input".toList ++ (tagM a1 k a2 old none ++ ['>']))) ++ t =
        inputLit ++ tagM a1 k a2 old none ++ '>' :: t by
      rw [show inputLit = '<' :: "input".toList from rfl]
      simp [List.append_assoc]]
    exact hfull

/-- Substitution passes over inert text followed by a tag or nothing. -/
theorem reSub_raw {k attr v s t : List Char} (hno : ¬ hasOcc inputLit s)
    (ht : t = [] ∨ ∃ t', t = '<' :: t') :
    reSub k attr v (s ++ t) = s ++ reSub k attr v t :=
  reSub_append_nomatch (noMatch_of_raw hno ht)

theorem flat_cons (s : Seg) (rest : List Seg) : flat (s :: rest) = s.flat ++ flat rest := rfl

theorem flat_head_of_tag {y : Seg} (hy : y.isRaw = false) (rest' : List Seg) :
    ∃ r, flat (y :: rest') = '<' :: r := by
  cases y with
  | raw s => simp [Seg.isRaw] at hy
  | tag a1 id a2 old ph =>
    refine ⟨("input".toList ++ (tagM a1 id a2 old ph ++ ['>'])) ++ flat rest', ?_⟩
    rw [flat_cons, flat_tag_eq, flat_tag_cons]

/-! ## Substitution on whole well-formed documents -/

/-- One value substitution maps a well-formed document segmentwise. -/
theorem reSub_flat_value (k v : List Char) (hk : GoodStr k) :
    ∀ segs, wfSegs segs →
      reSub k valueAttr v (flat segs) = flat (segs.map (updValue k v)) := by
  intro segs
  induction segs with
  | nil => intro _; rfl
  | cons s rest ih =>
    rintro ⟨hswf, hsep, hrest⟩
    cases s with
    | raw str =>
      rw [flat_cons, List.map_cons]
      have ht : flat rest = [] ∨ ∃ t', flat rest = '<' :: t' := by
        cases rest with
        | nil => exact Or.inl rfl
        | cons y rest' =>
          exact Or.inr (flat_head_of_tag (by simpa [sepOk, Seg.isRaw] using hsep) rest')
      rw [show Seg.flat (.raw str) = str from rfl, reSub_raw hswf ht, ih hrest]
      rfl
    | tag a1 id a2 old ph =>
      obtain ⟨ha1, hid, ha2, hold, hph⟩ := hswf
      rw [flat_cons, List.map_cons]
      by_cases hidk : id = k
      · subst hidk
        rw [reSub_tag_value_hit hid ha1 ha2 hold hph, ih hrest]
        simp [updValue, flat_cons]
      · rw [reSub_tag_miss hk (by decide) ha1 hid ha2 hold hph hidk, ih hrest]
        simp [updValue, hidk, flat_cons]

/-- One placeholder substitution maps a well-formed document segmentwise. -/
theorem reSub_flat_ph (k pnew : List Char) (hk : GoodStr k) :
    ∀ segs, wfSegs segs →
      reSub k placeholderAttr pnew (flat segs) = flat (segs.map (updPh k pnew)) := by
  intro segs
  induction segs with
  | nil => intro _; rfl
  | cons s rest ih =>
    rintro ⟨hswf, hsep, hrest⟩
    cases s with
    | raw str =>
      rw [flat_cons, List.map_cons]
      have ht : flat rest = [] ∨ ∃ t', flat rest = '<' :: t' := by
        cases rest with
        | nil => exact Or.inl rfl
        | cons y rest' =>
          exact Or.inr (flat_head_of_tag (by simpa [sepOk, Seg.isRaw] using hsep) rest')
      rw [show Seg.flat (.raw str) = str from rfl, reSub_raw hswf ht, ih hrest]
      rfl
    | tag a1 id a2 old ph =>
      obtain ⟨ha1, hid, ha2, hold, hph⟩ := hswf
      rw [flat_cons, List.map_cons]
      by_cases hidk : id = k
      · subst hidk
        rcases ph with _ | ⟨a3, p⟩
        · rw [reSub_tag_ph_none hid ha1 ha2 hold, ih hrest]
          simp [updPh, flat_cons]
        · obtain ⟨ha3, hp⟩ := hph
          rw [reSub_tag_ph_hit hid ha1 ha2 hold ha3 hp, ih hrest]
          simp [updPh, flat_cons]
      · rw [reSub_tag_miss hk (by decide) ha1 hid ha2 hold hph hidk, ih hrest]
        simp [updPh, hidk, flat_cons]

/-! ## Preservation of well-formedness by the updates -/

theorem wf_updValue {k v : List Char} (hv : GoodStr v) {s : Seg} (h : s.wf) :
    (updValue k v s).wf := by
  cases s with
  | raw str => exact h
  | tag a1 id a2 old ph =>
    obtain ⟨ha1, hid, ha2, hold, hph⟩ := h
    simp only [updValue]
    split
    · exact ⟨ha1, hid, ha2, hv, hph⟩
    · exact ⟨ha1, hid, ha2, hold, hph⟩

theorem wf_updPh {k p : List Char} (hp : GoodStr p) {s : Seg} (h : s.wf) :
    (updPh k p s).wf := by
  cases s with
  | raw str => exact h
  | tag a1 id a2 old ph =>
    obtain ⟨ha1, hid, ha2, hold, hph⟩ := h
    simp only [updPh]
    split
    · refine ⟨ha1, hid, ha2, hold, ?_⟩
      rcases ph with _ | ⟨a3, pp⟩
      · exact trivial
      · exact ⟨hph.1, hp⟩
    · exact ⟨ha1, hid, ha2, hold, hph⟩

theorem isRaw_updValue (k v : List Char) (s : Seg) : (updValue k v s).isRaw = s.isRaw := by
  cases s with
  | raw str => rfl
  | tag a1 id a2 old ph =>
    simp only [updValue]
    split <;> rfl

theorem isRaw_updPh (k p : List Char) (s : Seg) : (updPh k p s).isRaw = s.isRaw := by
  cases s with
  | raw str => rfl
  | tag a1 id a2 old ph =>
    simp only [updPh]
    split <;> rfl

theorem wfSegs_map_updValue {k v : List Char} (hv : GoodStr v) :
    ∀ segs, wfSegs segs → wfSegs (segs.map (updValue k v)) := by
  intro segs
  induction segs with
  | nil => intro _; trivial
  | cons s rest ih =>
    rintro ⟨hwf, hsep, hrest⟩
    refine ⟨wf_updValue hv hwf, ?_, ih hrest⟩
    cases rest with
    | nil => trivial
    | cons y r =>
      simp only [List.map_cons, sepOk, isRaw_updValue]
      simpa [sepOk] using hsep

theorem wfSegs_map_updPh {k p : List Char} (hp : GoodStr p) :
    ∀ segs, wfSegs segs → wfSegs (segs.map (updPh k p)) := by
  intro segs
  induction segs with
  | nil => intro _; trivial
  | cons s rest ih =>
    rintro ⟨hwf, hsep, hrest⟩
    refine ⟨wf_updPh hp hwf, ?_, ih hrest⟩
    cases rest with
    | nil => trivial
    | cons y r =>
      simp only [List.map_cons, sepOk, isRaw_updPh]
      simpa [sepOk] using hsep

/-! ## The injector on whole well-formed documents -/

theorem apply_mkCfg_none (html vP vI vE vT vD vS : List Char) :
    apply_loan_parameters html (some (mkCfg vP vI vE vT vD vS none)) =
      .ok (reSub keyDSP valueAttr vS (reSub keyDuration valueAttr vD
        (reSub keyTilgung valueAttr vT (reSub keyEffectiveRate valueAttr vE
          (reSub keyInterestRate valueAttr vI
            (reSub keyPrincipal valueAttr vP html)))))) := rfl

theorem apply_mkCfg_some (html vP vI vE vT vD vS p : List Char) :
    apply_loan_parameters html (some (mkCfg vP vI vE vT vD vS (some p))) =
      .ok (reSub keyDSP placeholderAttr p
        (reSub keyDSP valueAttr vS (reSub keyDuration valueAttr vD
          (reSub keyTilgung valueAttr vT (reSub keyEffectiveRate valueAttr vE
            (reSub keyInterestRate valueAttr vI
              (reSub keyPrincipal valueAttr vP html))))))) := rfl

theorem updAll_none (vP vI vE vT vD vS : List Char) (segs : List Seg) :
    updAll vP vI vE vT vD vS none segs =
      ((((((segs.map (updValue keyPrincipal vP)).map (updValue keyInterestRate vI)).map
        (updValue keyEffectiveRate vE)).map (updValue keyTilgung vT)).map
        (updValue keyDuration vD)).map (updValue keyDSP vS)) := rfl

theorem updAll_some (vP vI vE vT vD vS p : List Char) (segs : List Seg) :
    updAll vP vI vE vT vD vS (some p) segs =
      (((((((segs.map (updValue keyPrincipal vP)).map (updValue keyInterestRate vI)).map
        (updValue keyEffectiveRate vE)).map (updValue keyTilgung vT)).map
        (updValue keyDuration vD)).map (updValue keyDSP vS)).map (updPh keyDSP p)) := rfl

/-- The injector on a well-formed document with all six values configured:
the document is rewritten segmentwise. -/
theorem apply_flat (vP vI vE vT vD vS : List Char) (pv : Option (List Char))
    (hvP : GoodStr vP) (hvI : GoodStr vI) (hvE : GoodStr vE) (hvT : GoodStr vT)
    (hvD : GoodStr vD) (hvS : GoodStr vS) (hpv : ∀ p, pv = some p → GoodStr p)
    (segs : List Seg) (hwf : wfSegs segs) :
    apply_loan_parameters (flat segs) (some (mkCfg vP vI vE vT vD vS pv)) =
      .ok (flat (updAll vP vI vE vT vD vS pv segs)) := by
  have h1 := wfSegs_map_updValue (k := keyPrincipal) hvP segs hwf
  have h2 := wfSegs_map_updValue (k := keyInterestRate) hvI _ h1
  have h3 := wfSegs_map_updValue (k := keyEffectiveRate) hvE _ h2
  have h4 := wfSegs_map_updValue (k := keyTilgung) hvT _ h3
  have h5 := wfSegs_map_updValue (k := keyDuration) hvD _ h4
  rcases pv with _ | p
  · rw [apply_mkCfg_none, updAll_none]
    rw [reSub_flat_value keyPrincipal vP (by decide) segs hwf]
    rw [reSub_flat_value keyInterestRate vI (by decide) _ h1]
    rw [reSub_flat_value keyEffectiveRate vE (by decide) _ h2]
    rw [reSub_flat_value keyTilgung vT (by decide) _ h3]
    rw [reSub_flat_value keyDuration vD (by decide) _ h4]
    rw [reSub_flat_value keyDSP vS (by decide) _ h5]
  · rw [apply_mkCfg_some, updAll_some]
    rw [reSub_flat_value keyPrincipal vP (by decide) segs hwf]
    rw [reSub_flat_value keyInterestRate vI (by decide) _ h1]
    rw [reSub_flat_value keyEffectiveRate vE (by decide) _ h2]
    rw [reSub_flat_value keyTilgung vT (by decide) _ h3]
    rw [reSub_flat_value keyDuration vD (by decide) _ h4]
    rw [reSub_flat_value keyDSP vS (by decide) _ h5]
    rw [reSub_flat_ph keyDSP p (by decide) _ (wfSegs_map_updValue hvS _ h5)]

/-! ## Pointwise forms of the segment updates -/

theorem updValue_tag (k v a1 id a2 old : List Char) (ph : Option (List Char × List Char)) :
    updValue k v (.tag a1 id a2 old ph) = .tag a1 id a2 (if id = k then v else old) ph := by
  by_cases h : id = k <;> simp [updValue, h]

theorem updValue_raw (k v s : List Char) : updValue k v (.raw s) = .raw s := rfl

theorem updPh_tag (k p a1 id a2 old : List Char) (ph : Option (List Char × List Char)) :
    updPh k p (.tag a1 id a2 old ph) =
      .tag a1 id a2 old (if id = k then ph.map (fun q => (q.1, p)) else ph) := by
  by_cases h : id = k <;> simp [updPh, h]

theorem updPh_raw (k p s : List Char) : updPh k p (.raw s) = .raw s := rfl

theorem good_of_sixKeys {k : List Char} (hk : k ∈ sixKeys) : GoodStr k := by
  simp only [sixKeys, List.mem_cons, List.not_mem_nil, or_false] at hk
  rcases hk with rfl | rfl | rfl | rfl | rfl | rfl <;> decide

/-- The nested conditional computing a tag's value after the six
substitutions in implementation order. -/
theorem updChain_tag (vP vI vE vT vD vS k a1 a2 old : List Char)
    (ph : Option (List Char × List Char)) (hk : k ∈ sixKeys) :
    updValue keyDSP vS (updValue keyDuration vD (updValue keyTilgung vT
      (updValue keyEffectiveRate vE (updValue keyInterestRate vI
        (updValue keyPrincipal vP (.tag a1 k a2 old ph)))))) =
      .tag a1 k a2 (cfgValueFor k vP vI vE vT vD vS) ph := by
  simp only [updValue_tag]
  simp only [sixKeys, List.mem_cons, List.not_mem_nil, or_false] at hk
  rcases hk with rfl | rfl | rfl | rfl | rfl | rfl <;>
    · rw [cfgValueFor]
      norm_num [if_neg, if_pos]
      repeat' rw [if_neg (by decide)]

theorem getValue_ok_lookup {lc : LoanConfig} {key : String} {v : List Char}
    (h : getValue lc key = .ok v) : lookupKey lc key ≠ none := by
  unfold getValue at h
  intro hn
  rw [hn] at h
  exact absurd h (by simp)

/-! ## Claim C2: missing required sub-key -/

/-- C2 (counterexample): the empty `loan:` mapping misses every required
sub-key, yet `apply_loan_parameters` does not fail — the falsy-configuration
guard returns the document unchanged with no error. -/
theorem C2_counterexample :
    lookupKey ([] : LoanConfig) "principal" = none ∧
    apply_loan_parameters docIdAfterValue (some ([] : LoanConfig)) = .ok docIdAfterValue := by
  constructor
  · rfl
  · rfl

/-- C2 (amended): for every NON-EMPTY loan configuration missing one of the
six required sub-keys, the injection fails with a `ConfigurationError`
(the `KeyError` of the dict build), and no output document is produced. -/
theorem C2_missing_subkey_errors (html : List Char) (lc : LoanConfig) (hne : lc ≠ [])
    (hmiss : ∃ key ∈ requiredLoanKeys, lookupKey lc key = none) :
    ∃ e, apply_loan_parameters html (some lc) = .error e := by
  have hfalse : lc.isEmpty = false := List.isEmpty_eq_false.mpr hne
  rcases h1 : getValue lc "principal" with e1 | v1
  · exact ⟨e1, by simp [apply_loan_parameters, hfalse, h1, Bind.bind, Except.bind]⟩
  rcases h2 : getValue lc "interest_rate" with e2 | v2
  · exact ⟨e2, by simp [apply_loan_parameters, hfalse, h1, h2, Bind.bind, Except.bind]⟩
  rcases h3 : getValue lc "effective_rate" with e3 | v3
  · exact ⟨e3, by simp [apply_loan_parameters, hfalse, h1, h2, h3, Bind.bind, Except.bind]⟩
  rcases h4 : getValue lc "tilgung" with e4 | v4
  · exact ⟨e4, by simp [apply_loan_parameters, hfalse, h1, h2, h3, h4, Bind.bind, Except.bind]⟩
  rcases h5 : getValue lc "duration" with e5 | v5
  · exact ⟨e5, by simp [apply_loan_parameters, hfalse, h1, h2, h3, h4, h5, Bind.bind, Except.bind]⟩
  rcases h6 : getValue lc "default_special_payment" with e6 | v6
  · exact ⟨e6, by simp [apply_loan_parameters, hfalse, h1, h2, h3, h4, h5, h6, Bind.bind, Except.bind]⟩
  exfalso
  obtain ⟨key, hkey, hnone⟩ := hmiss
  simp only [requiredLoanKeys, List.mem_cons, List.not_mem_nil, or_false] at hkey
  rcases hkey with rfl | rfl | rfl | rfl | rfl | rfl
  · exact getValue_ok_lookup h1 hnone
  · exact getValue_ok_lookup h2 hnone
  · exact getValue_ok_lookup h3 hnone
  · exact getValue_ok_lookup h4 hnone
  · exact getValue_ok_lookup h5 hnone
  · exact getValue_ok_lookup h6 hnone

/-- Witness for the amended C2 at a concrete configuration missing
`interest_rate`. -/
theorem C2_missing_subkey_errors_witness :
    ∃ e, apply_loan_parameters docIdAfterValue
      (some [("principal", ⟨"1".toList, none⟩)]) = .error e :=
  C2_missing_subkey_errors docIdAfterValue [("principal", ⟨"1".toList, none⟩)]
    (by decide) ⟨"interest_rate", by decide, by decide⟩

/-! ## Claim C4: id position relative to the value attribute -/

/-- C4 (counterexample): a tag whose `id` attribute comes after its `value`
attribute is NOT rewritten — the pattern requires the id before the value —
although the claim requires the value to become `42`. -/
theorem C4_counterexample :
    apply_loan_parameters docIdAfterValue (some cfgAllNums) = .ok docIdAfterValue ∧
    docIdAfterValue ≠ "<input value=\"42\" id=\"principal\">".toList := by
  constructor
  · decide
  · decide

/-! ## Claim C5: the two `apply_loan_parameters` variants -/

/-- C5 (counterexample): on a configuration carrying a placeholder and a
document with a matching placeholder attribute, the `config_utils.py` and
`apply_config.py` versions return different documents. -/
theorem C5_counterexample :
    apply_loan_parameters docDSP (some cfgWithPh) ≠
      apply_loan_parameters_AC docDSP cfgWithPh := by
  decide

/-- C5 (amended): the two versions agree on every non-empty configuration
whose `default_special_payment` entry carries no placeholder field. -/
theorem C5_amended_agree (html : List Char) (lc : LoanConfig) (hne : lc ≠ [])
    (hph : ∀ e, lookupKey lc "default_special_payment" = some e → e.placeholder = none) :
    apply_loan_parameters html (some lc) = apply_loan_parameters_AC html lc := by
  have hfalse : lc.isEmpty = false := List.isEmpty_eq_false.mpr hne
  rcases h1 : getValue lc "principal" with e1 | v1
  · simp [apply_loan_parameters, apply_loan_parameters_AC, hfalse, h1, Bind.bind, Except.bind]
  rcases h2 : getValue lc "interest_rate" with e2 | v2
  · simp [apply_loan_parameters, apply_loan_parameters_AC, hfalse, h1, h2, Bind.bind, Except.bind]
  rcases h3 : getValue lc "effective_rate" with e3 | v3
  · simp [apply_loan_parameters, apply_loan_parameters_AC, hfalse, h1, h2, h3, Bind.bind, Except.bind]
  rcases h4 : getValue lc "tilgung" with e4 | v4
  · simp [apply_loan_parameters, apply_loan_parameters_AC, hfalse, h1, h2, h3, h4, Bind.bind, Except.bind]
  rcases h5 : getValue lc "duration" with e5 | v5
  · simp [apply_loan_parameters, apply_loan_parameters_AC, hfalse, h1, h2, h3, h4, h5, Bind.bind, Except.bind]
  rcases h6 : getValue lc "default_special_payment" with e6 | v6
  · simp [apply_loan_parameters, apply_loan_parameters_AC, hfalse, h1, h2, h3, h4, h5, h6, Bind.bind, Except.bind]
  have hlk : ∃ e, lookupKey lc "default_special_payment" = some e := by
    unfold getValue at h6
    rcases hl : lookupKey lc "default_special_payment" with _ | e
    · rw [hl] at h6
      exact absurd h6 (by simp)
    · exact ⟨e, rfl⟩
  obtain ⟨e, he⟩ := hlk
  have hpe := hph e he
  simp [apply_loan_parameters, apply_loan_parameters_AC, hfalse, h1, h2, h3, h4, h5, h6,
    he, hpe]

/-- Witness for the amended C5 at a concrete configuration and document. -/
theorem C5_amended_agree_witness :
    apply_loan_parameters docDSP (some cfgAllNums) =
      apply_loan_parameters_AC docDSP cfgAllNums :=
  C5_amended_agree docDSP cfgAllNums (by decide) (by decide)

/-! ## Claim C7: idempotence -/

set_option maxRecDepth 100000 in
/-- C7 (counterexample): injection is not idempotent for every
configuration.  With a placeholder containing a double quote, the quote
truncates the `[^"]*` group on the second run; with a placeholder
containing a `\1` backreference, every run splices the first group in
again and the document keeps growing. -/
theorem C7_counterexample :
    ((apply_loan_parametersT docDSP (some cfgQuotePh)).bind
        (fun d1 => apply_loan_parametersT d1 (some cfgQuotePh)) ≠
      apply_loan_parametersT docDSP (some cfgQuotePh)) ∧
    ((apply_loan_parametersT docDSP (some cfgBackrefPh)).bind
        (fun d1 => apply_loan_parametersT d1 (some cfgBackrefPh)) ≠
      apply_loan_parametersT docDSP (some cfgBackrefPh)) :=
  ⟨by decide, by decide⟩

/-! ## Claim C10: absent or unparsable configuration -/

/-- C10: `load_config` returns `None` when the file is absent or
unparsable; injecting with a `None` (or empty) configuration returns the
document unchanged; and the upload entry point then packages the markup
with only the D3 swap applied — no injection, no error. -/
theorem C10_none_config_noop :
    load_config .fileNotFound = none ∧ load_config .yamlError = none ∧
    (∀ html, apply_loan_parameters html none = .ok html) ∧
    (∀ html, apply_loan_parameters html (some ([] : LoanConfig)) = .ok html) ∧
    (∀ content, prepare_index_content (load_config .fileNotFound) content =
      .ok (replaceAll d3cdn d3local content.length content)) :=
  ⟨rfl, rfl, fun _ => rfl, fun _ => rfl, fun _ => rfl⟩

theorem cfgValueFor_dsp (vP vI vE vT vD vS : List Char) :
    cfgValueFor keyDSP vP vI vE vT vD vS = vS := by
  unfold cfgValueFor
  repeat' rw [if_neg (by decide)]

/-! ## Claim C1: value injection for each of the six keys -/

/-- C1: for each of the six recognized keys, injecting the configuration
into a document `pre ++ <input id="k" value="old"> ++ post` (with no other
`<input` anywhere) yields the same document with only that tag's value
attribute content replaced by the configured value's string form; the
surrounding text, the id, and the rest of the tag are byte-identical. -/
theorem C1_value_injection (k vP vI vE vT vD vS old pre post : List Char)
    (hk : k ∈ sixKeys) (hvP : GoodStr vP) (hvI : GoodStr vI) (hvE : GoodStr vE)
    (hvT : GoodStr vT) (hvD : GoodStr vD) (hvS : GoodStr vS) (hold : GoodStr old)
    (hpre : ¬ hasOcc inputLit pre) (hpost : ¬ hasOcc inputLit post) :
    apply_loan_parameters
        (flat [.raw pre, .tag [' '] k [' '] old none, .raw post])
        (some (mkCfg vP vI vE vT vD vS none)) =
      .ok (flat [.raw pre, .tag [' '] k [' '] (cfgValueFor k vP vI vE vT vD vS) none,
        .raw post]) := by
  have hkg := good_of_sixKeys hk
  have hwf : wfSegs [.raw pre, .tag [' '] k [' '] old none, .raw post] :=
    ⟨hpre, rfl, ⟨by decide, hkg, by decide, hold, trivial⟩, rfl, hpost, trivial, trivial⟩
  rw [apply_flat vP vI vE vT vD vS none hvP hvI hvE hvT hvD hvS
    (fun p hp => by simp at hp) _ hwf]
  rw [updAll_none]
  simp only [List.map_cons, List.map_nil, updValue_raw]
  rw [updChain_tag vP vI vE vT vD vS k [' '] [' '] old none hk]

/-- Witness for C1 at the `principal` key with concrete text. -/
theorem C1_value_injection_witness :
    apply_loan_parameters
        (flat [.raw "<p>".toList, .tag [' '] keyPrincipal [' '] "100000".toList none,
          .raw "</p>".toList])
        (some (mkCfg "300000".toList "3.5".toList "3.56".toList "2.0".toList "25".toList
          "5000".toList none)) =
      .ok (flat [.raw "<p>".toList,
        .tag [' '] keyPrincipal [' ']
          (cfgValueFor keyPrincipal "300000".toList "3.5".toList "3.56".toList "2.0".toList
            "25".toList "5000".toList) none,
        .raw "</p>".toList]) :=
  C1_value_injection keyPrincipal "300000".toList "3.5".toList "3.56".toList "2.0".toList
    "25".toList "5000".toList "100000".toList "<p>".toList "</p>".toList
    (by decide) (by decide) (by decide) (by decide) (by decide) (by decide) (by decide)
    (by decide) (by decide) (by decide)

/-! ## Claim C3: exact id matching -/

/-- C3: injecting the `interest_rate` key leaves unchanged every document
whose only input tag has a different id — in particular any id of which
`interest-rate` is a strict prefix, such as `interest-rate-custom`. -/
theorem C3_exact_id_match (id v a1 a2 old pre post : List Char)
    (hid : GoodStr id) (hne : id ≠ keyInterestRate)
    (ha1 : GoodStr a1) (ha2 : GoodStr a2) (hold : GoodStr old)
    (hpre : ¬ hasOcc inputLit pre) (hpost : ¬ hasOcc inputLit post) :
    reSub keyInterestRate valueAttr v
        (flat [.raw pre, .tag a1 id a2 old none, .raw post]) =
      flat [.raw pre, .tag a1 id a2 old none, .raw post] := by
  have hwf : wfSegs [.raw pre, .tag a1 id a2 old none, .raw post] :=
    ⟨hpre, rfl, ⟨ha1, hid, ha2, hold, trivial⟩, rfl, hpost, trivial, trivial⟩
  rw [reSub_flat_value keyInterestRate v (by decide) _ hwf]
  simp only [List.map_cons, List.map_nil, updValue_raw, updValue_tag, if_neg hne]

/-- Witness for C3 at id `interest-rate-custom`. -/
theorem C3_exact_id_match_witness :
    reSub keyInterestRate valueAttr "9".toList
        (flat [.raw "<p>".toList,
          .tag [' '] "interest-rate-custom".toList [' '] "5".toList none,
          .raw "</p>".toList]) =
      flat [.raw "<p>".toList,
        .tag [' '] "interest-rate-custom".toList [' '] "5".toList none,
        .raw "</p>".toList] :=
  C3_exact_id_match "interest-rate-custom".toList "9".toList [' '] [' '] "5".toList
    "<p>".toList "</p>".toList (by decide) (by decide) (by decide) (by decide) (by decide)
    (by decide) (by decide)

/-! ## Claim C4 (amended): id anywhere before the value attribute -/

/-- C4 (amended): the injector locates the tag whenever the id attribute
appears anywhere among the tag's attributes BEFORE the value attribute
(arbitrary well-formed attribute text around it) and rewrites the value;
a tag whose id comes after its value attribute is left unchanged (see the
counterexample). -/
theorem C4_amended_id_before_value (k vP vI vE vT vD vS a1 a2 old pre post : List Char)
    (hk : k ∈ sixKeys) (hvP : GoodStr vP) (hvI : GoodStr vI) (hvE : GoodStr vE)
    (hvT : GoodStr vT) (hvD : GoodStr vD) (hvS : GoodStr vS)
    (ha1 : GoodStr a1) (ha2 : GoodStr a2) (hold : GoodStr old)
    (hpre : ¬ hasOcc inputLit pre) (hpost : ¬ hasOcc inputLit post) :
    apply_loan_parameters
        (flat [.raw pre, .tag a1 k a2 old none, .raw post])
        (some (mkCfg vP vI vE vT vD vS none)) =
      .ok (flat [.raw pre, .tag a1 k a2 (cfgValueFor k vP vI vE vT vD vS) none,
        .raw post]) := by
  have hkg := good_of_sixKeys hk
  have hwf : wfSegs [.raw pre, .tag a1 k a2 old none, .raw post] :=
    ⟨hpre, rfl, ⟨ha1, hkg, ha2, hold, trivial⟩, rfl, hpost, trivial, trivial⟩
  rw [apply_flat vP vI vE vT vD vS none hvP hvI hvE hvT hvD hvS
    (fun p hp => by simp at hp) _ hwf]
  rw [updAll_none]
  simp only [List.map_cons, List.map_nil, updValue_raw]
  rw [updChain_tag vP vI vE vT vD vS k a1 a2 old none hk]

/-- Witness for the amended C4: the id separated from the value attribute
by further attribute text. -/
theorem C4_amended_id_before_value_witness :
    apply_loan_parameters
        (flat [.raw "<p>".toList,
          .tag " type:number ".toList keyDuration " min:1 ".toList "10".toList none,
          .raw "</p>".toList])
        (some (mkCfg "1".toList "2".toList "3".toList "4".toList "25".toList
          "6".toList none)) =
      .ok (flat [.raw "<p>".toList,
        .tag " type:number ".toList keyDuration " min:1 ".toList
          (cfgValueFor keyDuration "1".toList "2".toList "3".toList "4".toList "25".toList
            "6".toList) none,
        .raw "</p>".toList]) :=
  C4_amended_id_before_value keyDuration "1".toList "2".toList "3".toList "4".toList
    "25".toList "6".toList " type:number ".toList " min:1 ".toList "10".toList
    "<p>".toList "</p>".toList (by decide) (by decide) (by decide) (by decide) (by decide)
    (by decide) (by decide) (by decide) (by decide) (by decide) (by decide) (by decide)

/-! ## Bridging the template layer to the literal core

When the configured string contains no backslash, its replacement template
parses to `\g<1>`, the string's characters as literals, and `\g<3>`, and
the expansion at every match coincides with the literal insertion done by
`reSub`.  On backslash-free configurations the faithful model
`apply_loan_parametersT` therefore agrees with `apply_loan_parameters`. -/

theorem parseTmpl_nil : ∀ f, parseTmpl f [] = .ok []
  | 0 => rfl
  | _ + 1 => rfl

theorem parseTmpl_cons_nobs {c : Char} (hc : c ≠ '\\') (f : Nat) (rest : List Char) :
    parseTmpl (f + 1) (c :: rest) = consLit c (parseTmpl f rest) := by
  simp only [parseTmpl]
  rw [if_neg hc]

theorem parseTmpl_nobs (v : List Char) (hv : '\\' ∉ v) :
    ∀ f, v.length + 5 ≤ f →
      parseTmpl f (v ++ ['\\', 'g', '<', '3', '>']) =
        .ok (v.map TItem.lit ++ [TItem.grp 3]) := by
  induction v with
  | nil =>
    intro f hf
    rcases f with _ | f'
    · simp at hf
    · have h1 : parseTmpl (f' + 1) (([] : List Char) ++ ['\\', 'g', '<', '3', '>']) =
          consGrp 3 (parseTmpl f' []) := rfl
      rw [h1, parseTmpl_nil]
      rfl
  | cons c v ih =>
    intro f hf
    rcases f with _ | f'
    · simp at hf
    · have hc : c ≠ '\\' := fun h => hv (by rw [← h]; exact List.mem_cons_self c v)
      rw [List.cons_append, parseTmpl_cons_nobs hc,
        ih (fun h => hv (List.mem_cons_of_mem c h)) f'
          (by simp only [List.length_cons] at hf; omega)]
      rfl

theorem compileRepl_nobs (v : List Char) (hv : '\\' ∉ v) :
    compileRepl v = .ok (TItem.grp 1 :: (v.map TItem.lit ++ [TItem.grp 3])) := by
  have h1 : compileRepl v =
      consGrp 1 (parseTmpl
        (('g' :: '<' :: '1' :: '>' :: (v ++ ['\\', 'g', '<', '3', '>'])).length)
        (v ++ ['\\', 'g', '<', '3', '>'])) := rfl
  rw [h1, parseTmpl_nobs v hv _ (by
    simp only [List.length_cons, List.length_append, List.length_nil]
    omega)]
  rfl

theorem render_lits (g1 cnt v : List Char) (t : List TItem) :
    render g1 cnt (v.map TItem.lit ++ t) = v ++ render g1 cnt t := by
  induction v with
  | nil => rfl
  | cons c v ih =>
    show [c] ++ render g1 cnt (v.map TItem.lit ++ t) = (c :: v) ++ render g1 cnt t
    rw [ih]
    rfl

theorem render_g1_g3 (g1 cnt v : List Char) :
    render g1 cnt (TItem.grp 1 :: (v.map TItem.lit ++ [TItem.grp 3])) =
      g1 ++ (v ++ ['"']) := by
  have h1 : render g1 cnt (TItem.grp 1 :: (v.map TItem.lit ++ [TItem.grp 3])) =
      g1 ++ render g1 cnt (v.map TItem.lit ++ [TItem.grp 3]) := rfl
  rw [h1, render_lits]
  rfl

theorem goSubT_lit (k attr v : List Char) :
    ∀ (fuel : Nat) (s : List Char),
      goSubT k attr (TItem.grp 1 :: (v.map TItem.lit ++ [TItem.grp 3])) fuel s =
        goSub k attr v fuel s := by
  intro fuel
  induction fuel with
  | zero => intro s; rfl
  | succ f ih =>
    intro s
    cases s with
    | nil => rfl
    | cons c cs =>
      cases htm : tryMatch k attr (c :: cs) with
      | none => simp only [goSubT, goSub, htm, ih]
      | some t =>
        obtain ⟨g1, cnt, rest⟩ := t
        simp only [goSubT, goSub, htm, render_g1_g3, ih]
        simp [List.append_assoc]

theorem reSubT_nobs (k attr v s : List Char) (hv : '\\' ∉ v) :
    reSubT k attr v s = .ok (reSub k attr v s) := by
  unfold reSubT
  rw [compileRepl_nobs v hv]
  exact congrArg Except.ok (goSubT_lit k attr v s.length s)

theorem subT_nobs (k attr v h : List Char) (hv : '\\' ∉ v) :
    subT k attr v h = .ok (reSub k attr v h) := by
  unfold subT
  rw [reSubT_nobs k attr v h hv]

theorem applyT_mkCfg_ok (html vP vI vE vT vD vS : List Char) (pv : Option (List Char)) :
    apply_loan_parametersT html (some (mkCfg vP vI vE vT vD vS pv)) =
      (do
        let h ← subT keyPrincipal valueAttr vP html
        let h ← subT keyInterestRate valueAttr vI h
        let h ← subT keyEffectiveRate valueAttr vE h
        let h ← subT keyTilgung valueAttr vT h
        let h ← subT keyDuration valueAttr vD h
        let h ← subT keyDSP valueAttr vS h
        match pv with
        | some p => subT keyDSP placeholderAttr p h
        | none => .ok h) := by
  rcases pv with _ | p <;> rfl

/-- On a backslash-free configuration the faithful model returns exactly
what the literal model returns. -/
theorem applyT_agrees_nobs (html vP vI vE vT vD vS : List Char) (pv : Option (List Char))
    (hP : '\\' ∉ vP) (hI : '\\' ∉ vI) (hE : '\\' ∉ vE) (hT : '\\' ∉ vT)
    (hD : '\\' ∉ vD) (hS : '\\' ∉ vS) (hpv : ∀ p, pv = some p → '\\' ∉ p)
    (out : List Char)
    (h : apply_loan_parameters html (some (mkCfg vP vI vE vT vD vS pv)) = .ok out) :
    apply_loan_parametersT html (some (mkCfg vP vI vE vT vD vS pv)) = .ok out := by
  rcases pv with _ | p
  · rw [apply_mkCfg_none] at h
    injection h with h
    rw [applyT_mkCfg_ok]
    simp only [subT_nobs _ _ _ _ hP, subT_nobs _ _ _ _ hI, subT_nobs _ _ _ _ hE,
      subT_nobs _ _ _ _ hT, subT_nobs _ _ _ _ hD, subT_nobs _ _ _ _ hS,
      Bind.bind, Except.bind]
    rw [h]
  · rw [apply_mkCfg_some] at h
    injection h with h
    rw [applyT_mkCfg_ok]
    simp only [subT_nobs _ _ _ _ hP, subT_nobs _ _ _ _ hI, subT_nobs _ _ _ _ hE,
      subT_nobs _ _ _ _ hT, subT_nobs _ _ _ _ hD, subT_nobs _ _ _ _ hS,
      subT_nobs _ _ _ _ (hpv p rfl), Bind.bind, Except.bind]
    rw [h]

/-! ## Claim C6: the placeholder attribute of default-special-payment -/

/-- The literal-replacement core of the placeholder behavior: with a
placeholder configured, both attributes of the tag are rewritten; without
one, only the value is. -/
theorem apply_both_cases_lit (vP vI vE vT vD vS p a1 a2 old a3 oldp pre post : List Char)
    (hvP : GoodStr vP) (hvI : GoodStr vI) (hvE : GoodStr vE) (hvT : GoodStr vT)
    (hvD : GoodStr vD) (hvS : GoodStr vS) (hp : GoodStr p)
    (ha1 : GoodStr a1) (ha2 : GoodStr a2) (hold : GoodStr old)
    (ha3 : GoodStr a3) (holdp : GoodStr oldp)
    (hpre : ¬ hasOcc inputLit pre) (hpost : ¬ hasOcc inputLit post) :
    (apply_loan_parameters
        (flat [.raw pre, .tag a1 keyDSP a2 old (some (a3, oldp)), .raw post])
        (some (mkCfg vP vI vE vT vD vS (some p))) =
      .ok (flat [.raw pre, .tag a1 keyDSP a2 vS (some (a3, p)), .raw post])) ∧
    (apply_loan_parameters
        (flat [.raw pre, .tag a1 keyDSP a2 old (some (a3, oldp)), .raw post])
        (some (mkCfg vP vI vE vT vD vS none)) =
      .ok (flat [.raw pre, .tag a1 keyDSP a2 vS (some (a3, oldp)), .raw post])) := by
  have hwf : wfSegs [.raw pre, .tag a1 keyDSP a2 old (some (a3, oldp)), .raw post] :=
    ⟨hpre, rfl, ⟨ha1, by decide, ha2, hold, ha3, holdp⟩, rfl, hpost, trivial, trivial⟩
  constructor
  · rw [apply_flat vP vI vE vT vD vS (some p) hvP hvI hvE hvT hvD hvS
      (fun q hq => by injection hq with h; rw [← h]; exact hp) _ hwf]
    rw [updAll_some]
    simp only [List.map_cons, List.map_nil, updValue_raw]
    rw [updChain_tag vP vI vE vT vD vS keyDSP a1 a2 old (some (a3, oldp)) (by decide)]
    simp only [updPh_raw, updPh_tag, eq_self_iff_true, if_true, Option.map, cfgValueFor_dsp]
  · rw [apply_flat vP vI vE vT vD vS none hvP hvI hvE hvT hvD hvS
      (fun q hq => by simp at hq) _ hwf]
    rw [updAll_none]
    simp only [List.map_cons, List.map_nil, updValue_raw]
    rw [updChain_tag vP vI vE vT vD vS keyDSP a1 a2 old (some (a3, oldp)) (by decide)]
    rw [cfgValueFor_dsp]

set_option maxRecDepth 100000 in
/-- C6 (counterexample): the claim fails for placeholder strings that
contain a backslash, which the spec's string-typed placeholder domain
includes.  With placeholder `\d` the replacement template is malformed and
the program raises `re.error` instead of updating either attribute; with
placeholder `x\1y` the substitution succeeds but splices the whole first
group into the attribute instead of the literal configured string
(both behaviors checked against CPython's `re`). -/
theorem C6_counterexample :
    (apply_loan_parametersT docDSP (some cfgBadEscapePh) =
      .error (.reError "bad escape")) ∧
    (apply_loan_parametersT docDSP (some cfgBackrefPh) = .ok docDSPSpliced) ∧
    docDSPSpliced ≠ docDSPBoth :=
  ⟨by decide, by decide, by decide⟩

/-- C6 (amended): for configurations whose six values and placeholder
consist of good characters and contain no backslash — in particular every
numeric value and ordinary placeholder text — a present `placeholder`
field makes injection rewrite both the value and the placeholder attribute
of the `default-special-payment` element, and an absent one makes it
rewrite only the value, leaving the placeholder attribute untouched. -/
theorem C6_both_attrs (vP vI vE vT vD vS p a1 a2 old a3 oldp pre post : List Char)
    (hvP : GoodStr vP) (hvI : GoodStr vI) (hvE : GoodStr vE) (hvT : GoodStr vT)
    (hvD : GoodStr vD) (hvS : GoodStr vS) (hp : GoodStr p)
    (hbP : '\\' ∉ vP) (hbI : '\\' ∉ vI) (hbE : '\\' ∉ vE) (hbT : '\\' ∉ vT)
    (hbD : '\\' ∉ vD) (hbS : '\\' ∉ vS) (hbp : '\\' ∉ p)
    (ha1 : GoodStr a1) (ha2 : GoodStr a2) (hold : GoodStr old)
    (ha3 : GoodStr a3) (holdp : GoodStr oldp)
    (hpre : ¬ hasOcc inputLit pre) (hpost : ¬ hasOcc inputLit post) :
    (apply_loan_parametersT
        (flat [.raw pre, .tag a1 keyDSP a2 old (some (a3, oldp)), .raw post])
        (some (mkCfg vP vI vE vT vD vS (some p))) =
      .ok (flat [.raw pre, .tag a1 keyDSP a2 vS (some (a3, p)), .raw post])) ∧
    (apply_loan_parametersT
        (flat [.raw pre, .tag a1 keyDSP a2 old (some (a3, oldp)), .raw post])
        (some (mkCfg vP vI vE vT vD vS none)) =
      .ok (flat [.raw pre, .tag a1 keyDSP a2 vS (some (a3, oldp)), .raw post])) := by
  have hlit := apply_both_cases_lit vP vI vE vT vD vS p a1 a2 old a3 oldp pre post
    hvP hvI hvE hvT hvD hvS hp ha1 ha2 hold ha3 holdp hpre hpost
  constructor
  · exact applyT_agrees_nobs _ vP vI vE vT vD vS (some p) hbP hbI hbE hbT hbD hbS
      (fun q hq => by injection hq with h; rw [← h]; exact hbp) _ hlit.1
  · exact applyT_agrees_nobs _ vP vI vE vT vD vS none hbP hbI hbE hbT hbD hbS
      (fun q hq => by simp at hq) _ hlit.2

/-- Witness for the amended C6 with concrete text. -/
theorem C6_both_attrs_witness :
    (apply_loan_parametersT
        (flat [.raw "<p>".toList,
          .tag [' '] keyDSP [' '] "0".toList (some ([' '], "0".toList)), .raw "</p>".toList])
        (some (mkCfg "1".toList "2".toList "3".toList "4".toList "5".toList "5000".toList
          (some "z.B. 5000".toList))) =
      .ok (flat [.raw "<p>".toList,
        .tag [' '] keyDSP [' '] "5000".toList (some ([' '], "z.B. 5000".toList)),
        .raw "</p>".toList])) ∧
    (apply_loan_parametersT
        (flat [.raw "<p>".toList,
          .tag [' '] keyDSP [' '] "0".toList (some ([' '], "0".toList)), .raw "</p>".toList])
        (some (mkCfg "1".toList "2".toList "3".toList "4".toList "5".toList "5000".toList
          none)) =
      .ok (flat [.raw "<p>".toList,
        .tag [' '] keyDSP [' '] "5000".toList (some ([' '], "0".toList)),
        .raw "</p>".toList])) :=
  C6_both_attrs "1".toList "2".toList "3".toList "4".toList "5".toList
    "5000".toList "z.B. 5000".toList [' '] [' '] "0".toList [' '] "0".toList
    "<p>".toList "</p>".toList (by decide) (by decide) (by decide) (by decide) (by decide)
    (by decide) (by decide) (by decide) (by decide) (by decide) (by decide) (by decide)
    (by decide) (by decide) (by decide) (by decide) (by decide) (by decide) (by decide)
    (by decide) (by decide)

/-! ## Claim C8: element-not-found is a silent no-op per key -/

/-- C8: on a document carrying input tags for only two of the six keys,
injection raises no error, the present tags are updated to their configured
values, and everything else — including the absence of the other ids — is
left byte-identical (the missing keys are silent no-ops). -/
theorem C8_subset_of_ids (vP vI vE vT vD vS kA kB a1A a2A oldA a1B a2B oldB pre mid post :
      List Char)
    (hkA : kA ∈ sixKeys) (hkB : kB ∈ sixKeys)
    (hvP : GoodStr vP) (hvI : GoodStr vI) (hvE : GoodStr vE) (hvT : GoodStr vT)
    (hvD : GoodStr vD) (hvS : GoodStr vS)
    (ha1A : GoodStr a1A) (ha2A : GoodStr a2A) (holdA : GoodStr oldA)
    (ha1B : GoodStr a1B) (ha2B : GoodStr a2B) (holdB : GoodStr oldB)
    (hpre : ¬ hasOcc inputLit pre) (hmid : ¬ hasOcc inputLit mid)
    (hpost : ¬ hasOcc inputLit post) :
    apply_loan_parameters
        (flat [.raw pre, .tag a1A kA a2A oldA none, .raw mid,
          .tag a1B kB a2B oldB none, .raw post])
        (some (mkCfg vP vI vE vT vD vS none)) =
      .ok (flat [.raw pre, .tag a1A kA a2A (cfgValueFor kA vP vI vE vT vD vS) none,
        .raw mid, .tag a1B kB a2B (cfgValueFor kB vP vI vE vT vD vS) none,
        .raw post]) := by
  have hkgA := good_of_sixKeys hkA
  have hkgB := good_of_sixKeys hkB
  have hwf : wfSegs [.raw pre, .tag a1A kA a2A oldA none, .raw mid,
      .tag a1B kB a2B oldB none, .raw post] :=
    ⟨hpre, rfl, ⟨ha1A, hkgA, ha2A, holdA, trivial⟩, rfl, hmid, rfl,
      ⟨ha1B, hkgB, ha2B, holdB, trivial⟩, rfl, hpost, trivial, trivial⟩
  rw [apply_flat vP vI vE vT vD vS none hvP hvI hvE hvT hvD hvS
    (fun p hp => by simp at hp) _ hwf]
  rw [updAll_none]
  simp only [List.map_cons, List.map_nil, updValue_raw]
  rw [updChain_tag vP vI vE vT vD vS kA a1A a2A oldA none hkA,
    updChain_tag vP vI vE vT vD vS kB a1B a2B oldB none hkB]

/-- Witness for C8: only `principal` and `duration` tags present. -/
theorem C8_subset_of_ids_witness :
    apply_loan_parameters
        (flat [.raw "<p>".toList, .tag [' '] keyPrincipal [' '] "1".toList none,
          .raw "<br>".toList, .tag [' '] keyDuration [' '] "9".toList none,
          .raw "</p>".toList])
        (some (mkCfg "300000".toList "3.5".toList "3.56".toList "2.0".toList "25".toList
          "5000".toList none)) =
      .ok (flat [.raw "<p>".toList,
        .tag [' '] keyPrincipal [' ']
          (cfgValueFor keyPrincipal "300000".toList "3.5".toList "3.56".toList "2.0".toList
            "25".toList "5000".toList) none,
        .raw "<br>".toList,
        .tag [' '] keyDuration [' ']
          (cfgValueFor keyDuration "300000".toList "3.5".toList "3.56".toList "2.0".toList
            "25".toList "5000".toList) none,
        .raw "</p>".toList]) :=
  C8_subset_of_ids "300000".toList "3.5".toList "3.56".toList "2.0".toList "25".toList
    "5000".toList keyPrincipal keyDuration [' '] [' '] "1".toList [' '] [' '] "9".toList
    "<p>".toList "<br>".toList "</p>".toList (by decide) (by decide) (by decide) (by decide)
    (by decide) (by decide) (by decide) (by decide) (by decide) (by decide) (by decide)
    (by decide) (by decide) (by decide) (by decide) (by decide) (by decide)

/-! ## Claim C7 (amended): idempotence for quote-free configurations -/

theorem updAll_eq_map (vP vI vE vT vD vS : List Char) (pv : Option (List Char))
    (segs : List Seg) :
    updAll vP vI vE vT vD vS pv segs = segs.map (updSeg vP vI vE vT vD vS pv) := by
  rcases pv with _ | p
  · rw [updAll_none]
    simp only [List.map_map]
    rfl
  · rw [updAll_some]
    simp only [List.map_map]
    rfl

theorem updSeg_idem (vP vI vE vT vD vS : List Char) (pv : Option (List Char)) (s : Seg) :
    updSeg vP vI vE vT vD vS pv (updSeg vP vI vE vT vD vS pv s) =
      updSeg vP vI vE vT vD vS pv s := by
  cases s with
  | raw str =>
    rcases pv with _ | p <;> rfl
  | tag a1 id a2 old ph =>
    rcases pv with _ | p
    · simp only [updSeg, updValue_tag]
      split_ifs <;> rfl
    · simp only [updSeg, updValue_tag, updPh_tag]
      split_ifs <;> (first | rfl | (cases ph <;> rfl))

theorem wfSegs_updAll (vP vI vE vT vD vS : List Char) (pv : Option (List Char))
    (hvP : GoodStr vP) (hvI : GoodStr vI) (hvE : GoodStr vE) (hvT : GoodStr vT)
    (hvD : GoodStr vD) (hvS : GoodStr vS) (hpv : ∀ p, pv = some p → GoodStr p)
    (segs : List Seg) (hwf : wfSegs segs) :
    wfSegs (updAll vP vI vE vT vD vS pv segs) := by
  have h1 := wfSegs_map_updValue (k := keyPrincipal) hvP segs hwf
  have h2 := wfSegs_map_updValue (k := keyInterestRate) hvI _ h1
  have h3 := wfSegs_map_updValue (k := keyEffectiveRate) hvE _ h2
  have h4 := wfSegs_map_updValue (k := keyTilgung) hvT _ h3
  have h5 := wfSegs_map_updValue (k := keyDuration) hvD _ h4
  have h6 := wfSegs_map_updValue (k := keyDSP) hvS _ h5
  rcases pv with _ | p
  · rw [updAll_none]
    exact h6
  · rw [updAll_some]
    exact wfSegs_map_updPh (hpv p rfl) _ h6

/-- C7 (amended): for configurations whose value strings and optional
placeholder contain neither a double quote nor a backslash (nor the other
structural characters), injection is idempotent on well-formed documents —
re-running the injector on its own output changes nothing.  (The
unrestricted claim fails: a quote in the placeholder truncates the
`[^"]*` group on the second run, and a backslash is template-processed
rather than inserted literally; see the counterexamples.) -/
theorem C7_amended_idempotent (vP vI vE vT vD vS : List Char) (pv : Option (List Char))
    (hvP : GoodStr vP) (hvI : GoodStr vI) (hvE : GoodStr vE) (hvT : GoodStr vT)
    (hvD : GoodStr vD) (hvS : GoodStr vS) (hpv : ∀ p, pv = some p → GoodStr p)
    (hbP : '\\' ∉ vP) (hbI : '\\' ∉ vI) (hbE : '\\' ∉ vE) (hbT : '\\' ∉ vT)
    (hbD : '\\' ∉ vD) (hbS : '\\' ∉ vS) (hbpv : ∀ p, pv = some p → '\\' ∉ p)
    (segs : List Seg) (hwf : wfSegs segs) :
    ∃ d1, apply_loan_parametersT (flat segs) (some (mkCfg vP vI vE vT vD vS pv)) = .ok d1 ∧
      apply_loan_parametersT d1 (some (mkCfg vP vI vE vT vD vS pv)) = .ok d1 := by
  refine ⟨flat (updAll vP vI vE vT vD vS pv segs), ?_, ?_⟩
  · exact applyT_agrees_nobs _ vP vI vE vT vD vS pv hbP hbI hbE hbT hbD hbS hbpv _
      (apply_flat vP vI vE vT vD vS pv hvP hvI hvE hvT hvD hvS hpv segs hwf)
  · refine applyT_agrees_nobs _ vP vI vE vT vD vS pv hbP hbI hbE hbT hbD hbS hbpv _ ?_
    rw [apply_flat vP vI vE vT vD vS pv hvP hvI hvE hvT hvD hvS hpv _
      (wfSegs_updAll vP vI vE vT vD vS pv hvP hvI hvE hvT hvD hvS hpv segs hwf)]
    congr 1
    rw [updAll_eq_map, updAll_eq_map, List.map_map]
    congr 1
    exact List.map_congr_left (fun s _ => updSeg_idem vP vI vE vT vD vS pv s)

/-- Witness for the amended C7 with a concrete document and configuration. -/
theorem C7_amended_idempotent_witness :
    ∃ d1, apply_loan_parametersT
        (flat [.raw "<p>".toList,
          .tag [' '] keyDSP [' '] "0".toList (some ([' '], "0".toList)), .raw "</p>".toList])
        (some (mkCfg "1".toList "2".toList "3".toList "4".toList "5".toList "5000".toList
          (some "5000".toList))) = .ok d1 ∧
      apply_loan_parametersT d1
        (some (mkCfg "1".toList "2".toList "3".toList "4".toList "5".toList "5000".toList
          (some "5000".toList))) = .ok d1 :=
  C7_amended_idempotent "1".toList "2".toList "3".toList "4".toList "5".toList
    "5000".toList (some "5000".toList) (by decide) (by decide) (by decide) (by decide)
    (by decide) (by decide)
    (fun p hp => by injection hp with h; rw [← h]; decide)
    (by decide) (by decide) (by decide) (by decide) (by decide) (by decide)
    (fun p hp => by injection hp with h; rw [← h]; decide)
    [.raw "<p>".toList, .tag [' '] keyDSP [' '] "0".toList (some ([' '], "0".toList)),
      .raw "</p>".toList]
    (by decide)

/-! ## Claim C9: order of the per-key substitutions -/

theorem foldl_updValue_raw (l : List (List Char × List Char)) (s : List Char) :
    l.foldl (fun sg kv => updValue kv.1 kv.2 sg) (.raw s) = .raw s := by
  induction l with
  | nil => rfl
  | cons kv l ih =>
    rw [List.foldl_cons]
    exact ih

theorem foldl_updValue_tag (l : List (List Char × List Char)) (a1 id a2 : List Char)
    (ph : Option (List Char × List Char)) :
    ∀ old, l.foldl (fun sg kv => updValue kv.1 kv.2 sg) (.tag a1 id a2 old ph) =
      .tag a1 id a2 (valueAfter l id old) ph := by
  induction l with
  | nil => intro old; rfl
  | cons kv l ih =>
    intro old
    rw [List.foldl_cons]
    show l.foldl _ (updValue kv.1 kv.2 (Seg.tag a1 id a2 old ph)) = _
    rw [updValue_tag, ih]
    rfl

theorem valueAfter_nokey (l : List (List Char × List Char)) (id : List Char) :
    ∀ old, (∀ kv ∈ l, kv.1 ≠ id) → valueAfter l id old = old := by
  induction l with
  | nil => intro old _; rfl
  | cons kv l ih =>
    intro old h
    show valueAfter l id (if id = kv.1 then kv.2 else old) = old
    rw [if_neg (fun he => h kv (List.mem_cons_self _ _) he.symm)]
    exact ih old (fun kv' h' => h kv' (List.mem_cons_of_mem _ h'))

theorem valueAfter_mem {l : List (List Char × List Char)} {id : List Char}
    {kv : List Char × List Char} (hnd : (l.map Prod.fst).Nodup) (hmem : kv ∈ l)
    (hk : kv.1 = id) : ∀ old, valueAfter l id old = kv.2 := by
  induction l with
  | nil => simp at hmem
  | cons hd l ih =>
    intro old
    rw [List.map_cons, List.nodup_cons] at hnd
    rcases List.mem_cons.mp hmem with rfl | hmem'
    · show valueAfter l id (if id = kv.1 then kv.2 else old) = kv.2
      rw [if_pos hk.symm]
      refine valueAfter_nokey l id kv.2 (fun kv' h' hkk => hnd.1 ?_)
      exact List.mem_map.mpr ⟨kv', h', by rw [hkk, ← hk]⟩
    · have hne : hd.1 ≠ id := by
        intro he
        exact hnd.1 (List.mem_map.mpr ⟨kv, hmem', by rw [hk, he]⟩)
      show valueAfter l id (if id = hd.1 then hd.2 else old) = kv.2
      rw [if_neg (fun he => hne he.symm)]
      exact ih hnd.2 hmem' old

theorem valueAfter_perm {l l' : List (List Char × List Char)} {id old : List Char}
    (hp : l.Perm l') (hnd : (l.map Prod.fst).Nodup) :
    valueAfter l id old = valueAfter l' id old := by
  by_cases hex : ∃ kv ∈ l, kv.1 = id
  · obtain ⟨kv, hmem, hk⟩ := hex
    have hnd' : (l'.map Prod.fst).Nodup := ((hp.map Prod.fst).nodup_iff).mp hnd
    rw [valueAfter_mem hnd hmem hk old, valueAfter_mem hnd' (hp.mem_iff.mp hmem) hk old]
  · push_neg at hex
    rw [valueAfter_nokey l id old hex,
      valueAfter_nokey l' id old (fun kv h => hex kv (hp.mem_iff.mpr h))]

theorem foldl_map_upd (l : List (List Char × List Char)) :
    ∀ segs : List Seg,
      l.foldl (fun ss kv => ss.map (updValue kv.1 kv.2)) segs =
        segs.map (fun s => l.foldl (fun sg kv => updValue kv.1 kv.2 sg) s) := by
  induction l with
  | nil =>
    intro segs
    simp
  | cons kv l ih =>
    intro segs
    rw [List.foldl_cons, ih (segs.map (updValue kv.1 kv.2)), List.map_map]
    rfl

theorem foldl_substStep_flat :
    ∀ l : List (List Char × List Char), (∀ kv ∈ l, GoodStr kv.1 ∧ GoodStr kv.2) →
      ∀ segs, wfSegs segs →
        List.foldl substStep (flat segs) l =
          flat (l.foldl (fun ss kv => ss.map (updValue kv.1 kv.2)) segs) := by
  intro l
  induction l with
  | nil => intro _ segs _; rfl
  | cons kv l ih =>
    intro hl segs hwf
    rw [List.foldl_cons, List.foldl_cons]
    have h1 : substStep (flat segs) kv = flat (segs.map (updValue kv.1 kv.2)) :=
      reSub_flat_value kv.1 kv.2 (hl kv (List.mem_cons_self _ _)).1 segs hwf
    rw [h1]
    exact ih (fun kv' h' => hl kv' (List.mem_cons_of_mem _ h')) _
      (wfSegs_map_updValue (hl kv (List.mem_cons_self _ _)).2 segs hwf)

/-- C9: on well-formed documents, applying the six per-key value
replacements in any order yields the same final document as the
implementation's fixed sequence (which the second conjunct identifies with
`apply_loan_parameters`), because the matched regions do not overlap. -/
theorem C9_any_order (vP vI vE vT vD vS : List Char)
    (hvP : GoodStr vP) (hvI : GoodStr vI) (hvE : GoodStr vE) (hvT : GoodStr vT)
    (hvD : GoodStr vD) (hvS : GoodStr vS)
    (segs : List Seg) (hwf : wfSegs segs)
    (l : List (List Char × List Char)) (hperm : l.Perm (fixedPairs vP vI vE vT vD vS)) :
    List.foldl substStep (flat segs) l =
      List.foldl substStep (flat segs) (fixedPairs vP vI vE vT vD vS) ∧
    apply_loan_parameters (flat segs) (some (mkCfg vP vI vE vT vD vS none)) =
      .ok (List.foldl substStep (flat segs) (fixedPairs vP vI vE vT vD vS)) := by
  have hgoodF : ∀ kv ∈ fixedPairs vP vI vE vT vD vS, GoodStr kv.1 ∧ GoodStr kv.2 := by
    intro kv h
    simp only [fixedPairs, List.mem_cons, List.not_mem_nil, or_false] at h
    rcases h with rfl | rfl | rfl | rfl | rfl | rfl
    · exact ⟨(by decide : GoodStr keyPrincipal), hvP⟩
    · exact ⟨(by decide : GoodStr keyInterestRate), hvI⟩
    · exact ⟨(by decide : GoodStr keyEffectiveRate), hvE⟩
    · exact ⟨(by decide : GoodStr keyTilgung), hvT⟩
    · exact ⟨(by decide : GoodStr keyDuration), hvD⟩
    · exact ⟨(by decide : GoodStr keyDSP), hvS⟩
  have hgoodL : ∀ kv ∈ l, GoodStr kv.1 ∧ GoodStr kv.2 :=
    fun kv h => hgoodF kv (hperm.mem_iff.mp h)
  have hndF : ((fixedPairs vP vI vE vT vD vS).map Prod.fst).Nodup := by
    simp only [fixedPairs, List.map_cons, List.map_nil]
    decide
  have hndL : (l.map Prod.fst).Nodup := ((hperm.map Prod.fst).nodup_iff).mpr hndF
  constructor
  · rw [foldl_substStep_flat l hgoodL segs hwf,
      foldl_substStep_flat (fixedPairs vP vI vE vT vD vS) hgoodF segs hwf]
    congr 1
    rw [foldl_map_upd, foldl_map_upd]
    refine List.map_congr_left (fun s _ => ?_)
    cases s with
    | raw str => rw [foldl_updValue_raw, foldl_updValue_raw]
    | tag a1 id a2 old ph =>
      rw [foldl_updValue_tag, foldl_updValue_tag, valueAfter_perm hperm hndL]
  · rfl

/-- Witness for C9: the reversed key order on a concrete document. -/
theorem C9_any_order_witness :
    List.foldl substStep
        (flat [.raw "<p>".toList, .tag [' '] keyPrincipal [' '] "1".toList none,
          .raw "</p>".toList])
        ((fixedPairs "300000".toList "3.5".toList "3.56".toList "2.0".toList "25".toList
          "5000".toList).reverse) =
      List.foldl substStep
        (flat [.raw "<p>".toList, .tag [' '] keyPrincipal [' '] "1".toList none,
          .raw "</p>".toList])
        (fixedPairs "300000".toList "3.5".toList "3.56".toList "2.0".toList "25".toList
          "5000".toList) ∧
    apply_loan_parameters
        (flat [.raw "<p>".toList, .tag [' '] keyPrincipal [' '] "1".toList none,
          .raw "</p>".toList])
        (some (mkCfg "300000".toList "3.5".toList "3.56".toList "2.0".toList "25".toList
          "5000".toList none)) =
      .ok (List.foldl substStep
        (flat [.raw "<p>".toList, .tag [' '] keyPrincipal [' '] "1".toList none,
          .raw "</p>".toList])
        (fixedPairs "300000".toList "3.5".toList "3.56".toList "2.0".toList "25".toList
          "5000".toList)) :=
  C9_any_order "300000".toList "3.5".toList "3.56".toList "2.0".toList "25".toList
    "5000".toList (by decide) (by decide) (by decide) (by decide) (by decide) (by decide)
    [.raw "<p>".toList, .tag [' '] keyPrincipal [' '] "1".toList none, .raw "</p>".toList]
    (by decide) _ (List.reverse_perm _)

end Annuity
